import Mathlib

/-!
Verification development for the digdag-viz repository.

The development shallowly embeds the two core subsystems:

* the workflow task-tree walker and graph builder
  (`src/digdaggraph/graph.py`: `render_tasks`, `build_graph`,
  with helpers from `src/digdaggraph/parser.py`), and
* the SQL lineage extractor and lineage graph
  (`src/digdaggraph/lineage.py`: `SQLParser.extract_tables`,
  `TemplateResolver.extract_variables`,
  `WorkflowLineageExtractor._extract_from_sql_file`, `LineageGraph`).

External collaborators (graphviz, sqlglot, jinja2, the filesystem) are kept
abstract: the graph sink is modelled by returning the emitted node/edge lists,
the SQL parser by an `Except`-valued parse outcome supplied as an argument, the
template engine by a resolver that follows the interface contract stated in the
spec, and file reads by an `Option String` argument.

Node identifiers: the source builds a node id by joining the ancestor key
stack with `"/"` (`normalized_id`), a separator documented as never occurring
in task keys, so the join is injective on the ids the walker produces.  The
embedding keeps the unjoined key path (`List String`) as the node identifier;
`"…__error"` side-node ids, which the source forms by appending to the joined
string, are represented by appending `"__error"` to the last path component,
which corresponds to the same joined string.
-/

namespace DigdagViz

/-- A YAML-like value, the shape of parsed digdag workflow documents. -/
inductive Val where
  | str  : String → Val
  | int  : Int → Val
  | bool : Bool → Val
  | dict : List (String × Val) → Val
  | list : List Val → Val
deriving Inhabited

/-- `parser.is_task_key`: a key denotes a task iff it starts with `+`
(`k.startswith("+")`, written over the character list so that concrete
instances reduce in the kernel). -/
def isTaskKey (k : String) : Bool :=
  match k.data with
  | '+' :: _ => true
  | _ => false

/-- Dictionary lookup, mirroring Python `dict.get` / `in` on parsed YAML maps. -/
def dget (entries : List (String × Val)) (k : String) : Option Val :=
  match entries with
  | [] => none
  | (k', v) :: rest => if k' = k then some v else dget rest k

/-- Python truthiness of a YAML value, as used by `tbody.get("_parallel", False)`. -/
def valTruthy : Option Val → Bool
  | none => false
  | some (.str s) => s ≠ ""
  | some (.int n) => n ≠ 0
  | some (.bool b) => b
  | some (.dict d) => !d.isEmpty
  | some (.list l) => !l.isEmpty

/-- The ordered operator marker list of `parser.task_operator`. -/
def operatorList : List String :=
  ["sh>", "echo>", "td>", "call>", "require>", "loop>",
   "for_each>", "for_range>", "if>", "py>", "rb>", "http_call>"]

/-- `parser.task_operator`: first recognized operator marker present in the
task body, with its value. -/
def taskOperator (entries : List (String × Val)) : Option (String × Val) :=
  operatorList.findSome? fun op => (dget entries op).map fun v => (op, v)

/-- Python `str()` of a YAML value, used only to build edge labels
(`retry=…`); the dict/list cases are abbreviated since no claim inspects
labels of such values. -/
def reprVal : Val → String
  | .str s => s
  | .int n => toString n
  | .bool b => if b then "True" else "False"
  | .dict _ => "{...}"
  | .list _ => "[...]"

/-- `graph.normalized_id`: unique node id from the parent key stack and the
task's own key.  The source joins with `"/"`; the embedding keeps the path. -/
def normalizedId (stack : List String) (name : String) : List String :=
  stack ++ [name]

/-- A node as handed to the graphviz sink by `graph.add_node`
(styling data is a pure lookup and is not modelled). -/
structure GNode where
  id : List String
  label : String
  op : Option String
deriving Inhabited

/-- An edge as handed to the graphviz sink by `g.edge(...)`. -/
structure GEdge where
  src : List String
  tgt : List String
  label : Option String
  style : Option String
deriving Inhabited

/-- A plain (unlabeled, unstyled) sequencing edge. -/
def seqEdge (src tgt : List String) : GEdge := ⟨src, tgt, none, none⟩

/-- What one call of `graph.render_tasks` produces: the nodes and edges it
emits on the graph sink, in emission order, plus the completion-point list it
returns to its caller. -/
structure RenderResult where
  nodes : List GNode
  edges : List GEdge
  last : List (List String)
deriving Inhabited

def RenderResult.empty : RenderResult := ⟨[], [], []⟩

/-- The depth check at the top of `render_tasks`:
`max_depth is not None and current_depth >= max_depth`. -/
def depthCut (maxDepth : Option Nat) (curDepth : Nat) : Bool :=
  match maxDepth with
  | none => false
  | some d => curDepth ≥ d

/-- `child_tasks = [(k, v) for k, v in tbody.items() if is_task_key(k)]`. -/
def childTasks (entries : List (String × Val)) : List (String × Val) :=
  entries.filter fun p => isTaskKey p.1

theorem sizeOf_filter_le {α : Type} [SizeOf α] (p : α → Bool) (l : List α) :
    sizeOf (l.filter p) ≤ sizeOf l := by
  induction l with
  | nil => simp
  | cons a t ih =>
    rw [List.filter_cons]
    split <;> simp only [List.cons.sizeOf_spec] <;> omega

/-- The loop body of `graph.render_tasks`, in combination style: the loop over
the ordered task list, threading the previous sibling's completion points
(`prev_last_nodes`) and, when the parent is a parallel group, concatenating
every sibling's completion points into the returned list
(`all_parallel_last_nodes`).  Child recursion inlines the depth check that the
source performs on entry to the recursive call. -/
def renderLoop (maxDepth : Option Nat) (stack : List String) (curDepth : Nat)
    (parentPar : Bool) (prevLast : List (List String)) :
    List (String × Val) → RenderResult
  | [] => ⟨[], [], if parentPar then [] else prevLast⟩
  | (tkey, .dict entries) :: rest =>
    let nodeId := normalizedId stack tkey
    let tname := tkey.drop 1
    let op := (taskOperator entries).map (·.1)
    let label := tname ++ (match op with
      | some o => "\\n[" ++ o ++ "]"
      | none => "")
    let prevEdges : List GEdge :=
      if !prevLast.isEmpty && !parentPar then prevLast.map (seqEdge · nodeId) else []
    let parentEdges : List GEdge :=
      if parentPar && !stack.isEmpty then [seqEdge stack nodeId] else []
    let loopEdges : List GEdge :=
      (["loop>", "for_each>", "for_range>"].filter
        (fun lp => (dget entries lp).isSome)).map
        fun lp => ⟨nodeId, nodeId, some lp, some "dotted"⟩
    let retryEdges : List GEdge :=
      match dget entries "retry" with
      | some v => [⟨nodeId, nodeId, some ("retry=" ++ reprVal v), some "dotted"⟩]
      | none => []
    let errorId := normalizedId stack (tkey ++ "__error")
    let errNodes : List GNode :=
      match dget entries "_error" with
      | some _ => [⟨errorId, tname ++ " error handler", some "_error"⟩]
      | none => []
    let errEdges : List GEdge :=
      match dget entries "_error" with
      | some _ => [⟨nodeId, errorId, some "_error", some "dashed"⟩]
      | none => []
    let isPar := valTruthy (dget entries "_parallel")
    let cts := childTasks entries
    let child : RenderResult :=
      if cts.isEmpty then ⟨[], [], [nodeId]⟩
      else if depthCut maxDepth (curDepth + 1) then RenderResult.empty
      else renderLoop maxDepth (normalizedId stack tkey) (curDepth + 1) isPar [] cts
    let restRes := renderLoop maxDepth stack curDepth parentPar
      (if parentPar then prevLast else child.last) rest
    ⟨⟨nodeId, label, op⟩ :: (errNodes ++ child.nodes ++ restRes.nodes),
     prevEdges ++ parentEdges ++ loopEdges ++ retryEdges ++ errEdges
       ++ child.edges ++ restRes.edges,
     if parentPar then child.last ++ restRes.last else restRes.last⟩
  | (tkey, _) :: rest =>
    -- Non-dict task body (edge case): rendered as a self-completing leaf.
    let nodeId := normalizedId stack tkey
    let prevEdges : List GEdge :=
      if !prevLast.isEmpty && !parentPar then prevLast.map (seqEdge · nodeId) else []
    let parentEdges : List GEdge :=
      if parentPar && !stack.isEmpty then [seqEdge stack nodeId] else []
    let restRes := renderLoop maxDepth stack curDepth parentPar
      (if parentPar then prevLast else [nodeId]) rest
    ⟨⟨nodeId, tkey.drop 1, none⟩ :: restRes.nodes,
     prevEdges ++ parentEdges ++ restRes.edges,
     if parentPar then [nodeId] ++ restRes.last else restRes.last⟩
termination_by tasks => sizeOf tasks
decreasing_by
  · have h1 : sizeOf (childTasks entries) ≤ sizeOf entries :=
      sizeOf_filter_le _ _
    simp only [List.cons.sizeOf_spec, Prod.mk.sizeOf_spec, Val.dict.sizeOf_spec]
    omega
  · simp only [List.cons.sizeOf_spec]
    omega
  · simp only [List.cons.sizeOf_spec]
    omega

/-- `graph.render_tasks`: depth check on entry, then the task loop with empty
initial completion points. -/
def renderTasks (stack : List String) (tasks : List (String × Val))
    (maxDepth : Option Nat) (curDepth : Nat) (parentPar : Bool) : RenderResult :=
  if depthCut maxDepth curDepth then RenderResult.empty
  else renderLoop maxDepth stack curDepth parentPar [] tasks

/-- The synthetic root node id of `graph.build_graph`: `f"{wf_name}__root"`. -/
def rootId (wf : String) : List String := [wf ++ "__root"]

/-- `graph.build_graph`, restricted to what it emits on the graph sink: the
root node, then the walker's emissions for the top-level tasks, then one edge
from the root to the first top-level task (if any).  Workflow-name/schedule
discovery and file output are external concerns; the workflow name `wf` is a
parameter. -/
def buildGraph (doc : List (String × Val)) (wf : String)
    (maxDepth : Option Nat) : List GNode × List GEdge :=
  let topTasks := doc.filter fun p => isTaskKey p.1
  let r := renderTasks [wf] topTasks maxDepth 0 false
  let rootEdges : List GEdge :=
    match topTasks with
    | [] => []
    | (k, _) :: _ => [seqEdge (rootId wf) (normalizedId [wf] k)]
  (⟨rootId wf, wf, some "root"⟩ :: r.nodes, r.edges ++ rootEdges)

/-! ## Helper definitions and lemmas: the walker -/

/-- A task body that is a plain leaf: a dict with no child tasks and none of
the keys that make `render_tasks` emit extra edges or nodes
(`loop>`, `for_each>`, `for_range>`, `retry`, `_error`). -/
def isPlainLeaf : Val → Bool
  | .dict entries =>
    (childTasks entries).isEmpty
      && (dget entries "loop>").isNone && (dget entries "for_each>").isNone
      && (dget entries "for_range>").isNone && (dget entries "retry").isNone
      && (dget entries "_error").isNone
  | _ => false

/-- The sequential chain of edges task 1 → task 2 → … → task N. -/
def chainEdges (stack : List String) : List String → List GEdge
  | [] => []
  | [_] => []
  | k1 :: k2 :: rest =>
    seqEdge (normalizedId stack k1) (normalizedId stack k2)
      :: chainEdges stack (k2 :: rest)

theorem chainEdges_length (stack : List String) (ks : List String) :
    (chainEdges stack ks).length = ks.length - 1 := by
  induction ks with
  | nil => rfl
  | cons k1 rest ih =>
    cases rest with
    | nil => rfl
    | cons k2 rest2 =>
      show (chainEdges stack (k2 :: rest2)).length + 1 = _
      rw [ih]
      simp

theorem getLast?_cons_ne_none {α : Type} (a : α) (l : List α) :
    (a :: l).getLast? ≠ none := by
  induction l generalizing a with
  | nil => simp [List.getLast?]
  | cons b t ih =>
    rw [List.getLast?_cons_cons]
    exact ih b

theorem isPlainLeaf_destruct (b : Val) (h : isPlainLeaf b = true) :
    ∃ entries, b = .dict entries ∧ (childTasks entries).isEmpty = true
      ∧ dget entries "loop>" = none ∧ dget entries "for_each>" = none
      ∧ dget entries "for_range>" = none ∧ dget entries "retry" = none
      ∧ dget entries "_error" = none := by
  cases b with
  | dict entries =>
    refine ⟨entries, rfl, ?_⟩
    simp only [isPlainLeaf, Bool.and_eq_true, Option.isNone_iff_eq_none] at h
    exact ⟨h.1.1.1.1.1, h.1.1.1.1.2, h.1.1.1.2, h.1.1.2, h.1.2, h.2⟩
  | str s => simp [isPlainLeaf] at h
  | int n => simp [isPlainLeaf] at h
  | bool x => simp [isPlainLeaf] at h
  | list l => simp [isPlainLeaf] at h

/-- On a sequential (non-parallel) run over plain leaf tasks, `renderLoop`
emits exactly the edges from the incoming completion points to the first task
plus the sibling chain, and returns the last task as the sole completion
point. -/
theorem renderLoop_seq_leaves (maxD : Option Nat) (stack : List String)
    (c : Nat) (tasks : List (String × Val)) (prev : List (List String))
    (hleaf : ∀ t ∈ tasks, isPlainLeaf t.2 = true) :
    (renderLoop maxD stack c false prev tasks).edges
      = (match tasks with
         | [] => []
         | (k, _) :: _ =>
           if prev.isEmpty then []
           else prev.map (seqEdge · (normalizedId stack k)))
        ++ chainEdges stack (tasks.map Prod.fst)
    ∧ (renderLoop maxD stack c false prev tasks).last
      = (match tasks.getLast? with
         | none => prev
         | some t => [normalizedId stack t.1]) := by
  induction tasks generalizing prev with
  | nil => simp [renderLoop, chainEdges]
  | cons hd rest ih =>
    obtain ⟨k, b⟩ := hd
    obtain ⟨entries, rfl, hempty, hlp, hfe, hfr, hrt, her⟩ :=
      isPlainLeaf_destruct b (hleaf (k, b) (List.mem_cons_self _ _))
    obtain ⟨hr1, hr2⟩ := ih [normalizedId stack k]
      (fun t ht => hleaf t (List.mem_cons_of_mem _ ht))
    constructor
    · cases hp : prev.isEmpty with
      | false =>
        simp only [renderLoop, hempty, hlp, hfe, hfr, hrt, her, hp,
          List.filter, Option.isSome_none, Bool.not_false, Bool.not_true,
          Bool.and_true, Bool.false_and, Bool.and_false, Bool.false_eq_true, ↓reduceIte,
          List.map_nil, List.nil_append, List.append_nil]
        cases rest with
        | nil =>
          simp [renderLoop, chainEdges]
        | cons hd2 rest2 =>
          obtain ⟨k2, b2⟩ := hd2
          simp only [List.isEmpty_cons, Bool.false_eq_true, ↓reduceIte, List.map_cons] at hr1
          rw [hr1]
          simp [chainEdges]
      | true =>
        simp only [renderLoop, hempty, hlp, hfe, hfr, hrt, her, hp,
          List.filter, Option.isSome_none, Bool.not_false, Bool.not_true,
          Bool.and_true, Bool.false_and, Bool.and_false, Bool.false_eq_true, ↓reduceIte,
          List.map_nil, List.nil_append, List.append_nil]
        cases rest with
        | nil =>
          simp [renderLoop, chainEdges]
        | cons hd2 rest2 =>
          obtain ⟨k2, b2⟩ := hd2
          simp only [List.isEmpty_cons, Bool.false_eq_true, ↓reduceIte, List.map_cons] at hr1
          rw [hr1]
          simp [chainEdges]
    · simp only [renderLoop, hempty, hlp, hfe, hfr, hrt, her,
        List.filter, Option.isSome_none, Bool.not_false, Bool.not_true,
        Bool.and_true, Bool.false_and, Bool.and_false, Bool.false_eq_true, ↓reduceIte,
        List.map_nil, List.nil_append, List.append_nil]
      rw [hr2]
      cases rest with
      | nil => simp [renderLoop]
      | cons hd2 rest2 =>
        cases hgl : (hd2 :: rest2).getLast? with
        | none => exact absurd hgl (getLast?_cons_ne_none _ _)
        | some t => rw [List.getLast?_cons_cons, hgl]

/-- A task whose subtree ends at itself: non-dict body, or a dict with no
child task keys. -/
def isLeafTask : Val → Bool
  | .dict entries => (childTasks entries).isEmpty
  | _ => true

theorem stack_prefix_normalizedId (stack : List String) (k : String) :
    stack <+: normalizedId stack k
    ∧ stack.length < (normalizedId stack k).length := by
  constructor
  · exact ⟨[k], rfl⟩
  · simp [normalizedId]

theorem renderLoop_endpoints (maxD : Option Nat) (stack : List String)
    (c : Nat) (par : Bool) (prev : List (List String))
    (tasks : List (String × Val)) :
    (∀ p ∈ prev, stack <+: p ∧ stack.length < p.length) →
    (∀ e ∈ (renderLoop maxD stack c par prev tasks).edges,
        (stack <+: e.src) ∧ stack <+: e.tgt ∧ stack.length < e.tgt.length)
    ∧ (∀ p ∈ (renderLoop maxD stack c par prev tasks).last,
        stack <+: p ∧ stack.length < p.length) := by
  induction stack, c, par, prev, tasks using renderLoop.induct with
  | maxDepth => exact maxD
  | case1 stack c par prev =>
    intro hpre
    refine ⟨fun e he => absurd he (by simp [renderLoop]), fun p hp => ?_⟩
    simp only [renderLoop] at hp
    split at hp
    · exact absurd hp (List.not_mem_nil p)
    · exact hpre p hp
  | case2 stack c par prev tkey entries rest nodeId isPar cts child ih1 ih2 ih3 =>
    intro hpre
    have hkid := stack_prefix_normalizedId stack tkey
    have hkiderr := stack_prefix_normalizedId stack (tkey ++ "__error")
    have hch2 := ih2 (fun p hp => absurd hp (List.not_mem_nil p))
    have hlastc : ∀ p ∈ child.last, stack <+: p ∧ stack.length < p.length := by
      intro p hp
      unfold child at hp
      split at hp
      · rw [List.mem_singleton] at hp
        subst hp
        exact hkid
      · split at hp
        · exact absurd hp (List.not_mem_nil p)
        · obtain ⟨h1, h2⟩ := hch2.2 p hp
          exact ⟨hkid.1.trans h1, hkid.2.trans h2⟩
    have hprev3 : ∀ p ∈ (if h : par = true then prev else child.last),
        stack <+: p ∧ stack.length < p.length := by
      split
      · exact hpre
      · exact hlastc
    have hrest := ih3 hprev3
    constructor
    · intro e he
      simp only [renderLoop, List.mem_append] at he
      rcases he with ((((((h | h) | h) | h) | h) | h) | h)
      · -- prevEdges
        split at h
        · obtain ⟨p, hp, rfl⟩ := List.mem_map.mp h
          exact ⟨(hpre p hp).1, hkid.1, hkid.2⟩
        · exact absurd h (List.not_mem_nil e)
      · -- parentEdges
        split at h
        · rw [List.mem_singleton] at h
          subst h
          exact ⟨List.prefix_refl stack, hkid.1, hkid.2⟩
        · exact absurd h (List.not_mem_nil e)
      · -- loopEdges
        obtain ⟨lp, hlp, rfl⟩ := List.mem_map.mp h
        exact ⟨hkid.1, hkid.1, hkid.2⟩
      · -- retryEdges
        split at h
        · rw [List.mem_singleton] at h
          subst h
          exact ⟨hkid.1, hkid.1, hkid.2⟩
        · exact absurd h (List.not_mem_nil e)
      · -- errEdges
        split at h
        · rw [List.mem_singleton] at h
          subst h
          exact ⟨hkid.1, hkiderr.1, hkiderr.2⟩
        · exact absurd h (List.not_mem_nil e)
      · -- child edges
        split at h
        · exact absurd h (List.not_mem_nil e)
        · split at h
          · exact absurd h (List.not_mem_nil e)
          · obtain ⟨h1, h2, h3⟩ := hch2.1 e h
            exact ⟨hkid.1.trans h1, hkid.1.trans h2, hkid.2.trans h3⟩
      · -- rest edges
        exact hrest.1 e h
    · intro p hp
      simp only [renderLoop] at hp
      split at hp
      case isTrue hpp =>
        rw [dif_pos hpp] at hrest
        rcases List.mem_append.mp hp with h | h
        · exact hlastc p h
        · exact hrest.2 p h
      case isFalse hpp =>
        rw [dif_neg hpp] at hrest
        exact hrest.2 p hp
  | case3 stack c par prev tkey b rest hnd nodeId ih =>
    intro hpre
    have hkid := stack_prefix_normalizedId stack tkey
    have hprev3 : ∀ p ∈ (if h : par = true then prev else [normalizedId stack tkey]),
        stack <+: p ∧ stack.length < p.length := by
      split
      · exact hpre
      · intro p hp
        rw [List.mem_singleton] at hp
        subst hp
        exact hkid
    have hrest := ih hprev3
    cases b
    case dict entries => exact absurd rfl (hnd entries)
    all_goals
      refine ⟨fun e he => ?_, fun p hp => ?_⟩
      · simp only [renderLoop, List.mem_append] at he
        rcases he with (h | h) | h
        · split at h
          · obtain ⟨p, hp, rfl⟩ := List.mem_map.mp h
            exact ⟨(hpre p hp).1, hkid.1, hkid.2⟩
          · exact absurd h (List.not_mem_nil e)
        · split at h
          · rw [List.mem_singleton] at h
            subst h
            exact ⟨List.prefix_refl stack, hkid.1, hkid.2⟩
          · exact absurd h (List.not_mem_nil e)
        · exact hrest.1 e h
      · simp only [renderLoop] at hp
        split at hp
        case isTrue hpp =>
          rw [dif_pos hpp] at hrest
          rcases List.mem_append.mp hp with h | h
          · rw [List.mem_singleton] at h
            subst h
            exact hkid
          · exact hrest.2 p h
        case isFalse hpp =>
          rw [dif_neg hpp] at hrest
          exact hrest.2 p hp

/-! ## SQL lineage extraction (`lineage.py`) -/

/-- `lineage.TableReference`: equality and hashing are by the fully qualified
name, mirroring `__eq__`/`__hash__`. -/
structure TableReference where
  name : String
  database : Option String
  schema : Option String
deriving Inhabited, DecidableEq

/-- `TableReference.full_name`. -/
def TableReference.full_name (t : TableReference) : String :=
  String.intercalate "." (t.database.toList ++ t.schema.toList ++ [t.name])

/-- `lineage.SQLLineage`. -/
structure SQLLineage where
  sources : List TableReference
  targets : List TableReference
  resolved : Bool
  template_variables : List String
  error : Option String
deriving Inhabited, DecidableEq

/-- `lineage.TaskLineage`. -/
structure TaskLineage where
  task_name : String
  workflow_name : String
  sql_file : Option String
  lineage : Option SQLLineage
deriving Inhabited, DecidableEq

/-- A sqlglot `exp.Table` node: unqualified name plus database qualifier,
the two attributes `_extract_table_reference` reads. -/
structure STable where
  name : String
  db : Option String
deriving Inhabited, DecidableEq

/-- The `AS`-clause of a `CREATE TABLE … AS` statement, exposing its own CTE
aliases and table references (`parsed.expression.find_all`). -/
structure SubQ where
  ctes : List String
  tables : List STable
deriving Inhabited, DecidableEq

/-- Statement classification used by `extract_tables`:
`isinstance(parsed, exp.Insert)` / `exp.Create` / anything else. -/
inductive StmtKind where
  | insert (target : Option STable)
  | create (target : Option STable) (expr : Option SubQ)
  | other
deriving Inhabited, DecidableEq

/-- Abstraction of one parsed sqlglot statement: the CTE aliases found by
`parsed.find_all(exp.CTE)`, the table nodes found by
`parsed.find_all(exp.Table)` (both traversals cover the whole statement tree),
and the statement kind.  sqlglot itself is an external collaborator; parse
outcomes enter the model as values of this type. -/
structure Stmt where
  ctes : List String
  tables : List STable
  kind : StmtKind
deriving Inhabited, DecidableEq

/-- `_extract_table_reference` on a table node (the node is never falsy in
the model, so the `None` case does not arise). -/
def extractTableReference (t : STable) : TableReference := ⟨t.name, t.db, none⟩

/-- Python-set insertion on lists of table references
(identity is by `full_name`, per `TableReference.__eq__`/`__hash__`). -/
def addRef (l : List TableReference) (r : TableReference) : List TableReference :=
  if l.any fun x => x.full_name = r.full_name then l else l ++ [r]

/-- Python `set.discard` on lists of table references. -/
def discardRef (l : List TableReference) (r : TableReference) : List TableReference :=
  l.filter fun x => x.full_name ≠ r.full_name

/-- Python-set insertion for the CTE-name set. -/
def addName (l : List String) (s : String) : List String :=
  if s ∈ l then l else l ++ [s]

/-- Python `str.lower` (ASCII view; `String.toLower`'s byte-positional
implementation does not reduce in the kernel, this structural version does). -/
def strLower (s : String) : String := String.mk (s.data.map Char.toLower)

/-- `SQLParser._is_real_table`. -/
def isRealTable (t : TableReference) (cteNames : List String) : Bool :=
  let tn := strLower t.name
  let fn := strLower t.full_name
  let sysdb : Bool :=
    match t.database with
    | some db => decide (strLower db ∈ ["information_schema", "sys", "pg_catalog"])
    | none => false
  if tn ∈ cteNames ∨ fn ∈ cteNames then false
  else if sysdb then false
  else if tn.length ≤ 2 then false
  else if tn ∈ ["t", "t1", "t2", "t3", "t4", "t5", "cj", "a", "b", "c", "d"] then false
  else true

/-- The per-statement step of `SQLParser.extract_tables`, threading the
`(sources, targets, cte_names)` state across statements exactly as the
source's loop does. -/
def processStmt (acc : List TableReference × List TableReference × List String)
    (st : Stmt) : List TableReference × List TableReference × List String :=
  let sources := acc.1
  let targets := acc.2.1
  let cteNames := acc.2.2
  let cteNames := st.ctes.foldl (fun cs c => addName cs (strLower c)) cteNames
  let sources := st.tables.foldl (fun ss t =>
    let ref := extractTableReference t
    if isRealTable ref cteNames then addRef ss ref else ss) sources
  match st.kind with
  | .insert tgt =>
    match tgt with
    | some tnode =>
      let ref := extractTableReference tnode
      (discardRef sources ref, addRef targets ref, cteNames)
    | none => (sources, targets, cteNames)
  | .create tgt expr =>
    let state1 :=
      match tgt with
      | some tnode =>
        let ref := extractTableReference tnode
        (discardRef sources ref, addRef targets ref, some ref)
      | none => (sources, targets, (none : Option TableReference))
    let sources := state1.1
    let targets := state1.2.1
    let targetRef := state1.2.2
    match expr with
    | some sq =>
      let cteNames := sq.ctes.foldl (fun cs c => addName cs (strLower c)) cteNames
      let sources := sq.tables.foldl (fun ss t =>
        let ref := extractTableReference t
        let notTarget : Bool :=
          match targetRef with
          | some tr => decide (ref.full_name ≠ tr.full_name)
          | none => true
        if notTarget && isRealTable ref cteNames then addRef ss ref
        else ss) sources
      (sources, targets, cteNames)
    | none => (sources, targets, cteNames)
  | .other => (sources, targets, cteNames)

/-- `SQLParser.extract_tables`, as a function of the external parse outcome
(`sqlglot.parse` succeeding with a statement list, or raising). -/
def extractTables (pr : Except String (List Stmt)) : SQLLineage :=
  match pr with
  | .error e => ⟨[], [], false, [], some e⟩
  | .ok [] => ⟨[], [], false, [], some "No SQL statements found"⟩
  | .ok stmts =>
    let res := stmts.foldl processStmt ([], [], [])
    ⟨res.1, res.2.1, true, [], none⟩

/-! ### Template handling (`TemplateResolver`) -/

/-- `\w` of the source's variable regexes (ASCII view). -/
def isWordChar (c : Char) : Bool := c.isAlphanum || c = '_'

/-- `\s` of the source's variable regexes. -/
def isSpaceChar (c : Char) : Bool :=
  c = ' ' || c = '\t' || c = '\n' || c = '\r' || c = '\x0b' || c = '\x0c'

/-- One attempted match of `\{\{\s*(\w+)\s*\}\}` at the head of the text,
returning the captured variable name and the remaining text. -/
def matchJinja : List Char → Option (String × List Char)
  | '{' :: '{' :: rest =>
    let rest2 := rest.dropWhile isSpaceChar
    let w := rest2.takeWhile isWordChar
    let rest3 := rest2.dropWhile isWordChar
    if w.isEmpty then none
    else
      match rest3.dropWhile isSpaceChar with
      | '}' :: '}' :: rest5 => some (String.mk w, rest5)
      | _ => none
  | _ => none

/-- One attempted match of `\$\{\s*(\w+)\s*\}` at the head of the text. -/
def matchDollar : List Char → Option (String × List Char)
  | '$' :: '{' :: rest =>
    let rest2 := rest.dropWhile isSpaceChar
    let w := rest2.takeWhile isWordChar
    let rest3 := rest2.dropWhile isWordChar
    if w.isEmpty then none
    else
      match rest3.dropWhile isSpaceChar with
      | '}' :: rest4 => some (String.mk w, rest4)
      | _ => none
  | _ => none

/-- `re.findall` for the double-brace pattern.  The regex scans left to right
and resumes after each match, but a match contains `{` only in its two leading
characters, so matches can never overlap; collecting the match attempted at
every position therefore yields exactly the same list and keeps the recursion
structural. -/
def findAllJinja : List Char → List String
  | [] => []
  | c :: cs =>
    (match matchJinja (c :: cs) with
     | some (v, _) => [v]
     | none => []) ++ findAllJinja cs

/-- `re.findall` for the dollar-brace pattern (same non-overlap argument:
`$` and `{` occur only in a match's two leading characters). -/
def findAllDollar : List Char → List String
  | [] => []
  | c :: cs =>
    (match matchDollar (c :: cs) with
     | some (v, _) => [v]
     | none => []) ++ findAllDollar cs

/-- Order-preserving deduplication.  The source returns
`list(set(jinja_vars + digdag_vars))`, whose order is unspecified; claims
about `template_variables` depend only on membership. -/
def dedup (l : List String) : List String :=
  l.foldl (fun acc s => if s ∈ acc then acc else acc ++ [s]) []

/-- `TemplateResolver.extract_variables`. -/
def extractVariables (s : String) : List String :=
  dedup (findAllJinja s.data ++ findAllDollar s.data)

/-- Prefix test on character lists (kernel-reducing counterpart of
`List.isPrefixOf`). -/
def isPrefixL : List Char → List Char → Bool
  | [], _ => true
  | _ :: _, [] => false
  | c :: cs, d :: ds => if c = d then isPrefixL cs ds else false

/-- Python's substring test `needle in haystack`. -/
def containsL : List Char → List Char → Bool
  | [], pat => pat.isEmpty
  | c :: cs, pat => isPrefixL pat (c :: cs) || containsL cs pat

/-- `'{{' in sql_template or '{%' in sql_template`. -/
def hasTemplates (s : String) : Bool :=
  containsL s.data ['{', '{'] || containsL s.data ['{', '%']

/-- Modelled from the spec: the external template engine (jinja2, behind
`TemplateResolver.resolve`) "accepts (template_text, variable_map), returns
rendered text or raises on undefined-variable".  Rendering fails exactly when
some double-brace-referenced variable is missing from the context; the
rendered text on success is produced by the abstract `render` argument, since
no claim depends on its content.  On failure the source returns the original
template. -/
def resolveTemplate (render : String → String)
    (context : List (String × String)) (sql_template : String) : String × Bool :=
  if (findAllJinja sql_template.data).all fun v => (context.lookup v).isSome then
    (render sql_template, true)
  else (sql_template, false)

/-! ### `WorkflowLineageExtractor._extract_from_sql_file` -/

/-- The task-definition parameters `_extract_from_sql_file` reads
(`task_def.get('database'/'create_table'/'insert_into')`).
An absent `task_def` (Python `None`, falsy) is `none`. -/
structure TaskDef where
  database : Option String
  create_table : Option String
  insert_into : Option String
deriving Inhabited, DecidableEq

/-- Python `str.split` on a single-character separator (structural stand-in
for `table_name.split('.')`, whose `String.splitOn` counterpart does not
reduce in the kernel). -/
def splitOnChar (sep : Char) : List Char → List (List Char)
  | [] => [[]]
  | c :: cs =>
    if c = sep then [] :: splitOnChar sep cs
    else
      match splitOnChar sep cs with
      | h :: t => (c :: h) :: t
      | [] => [[c]]

/-- The target-name normalization shared by the `create_table` and
`insert_into` branches: a dotted name is split into a leading database
qualifier and the rest; otherwise the task's `database` parameter is used. -/
def overrideTarget (table_name : String) (db : Option String) : TableReference :=
  if containsL table_name.data ['.'] then
    match (splitOnChar '.' table_name.data).map String.mk with
    | p0 :: p1 :: restP => ⟨String.intercalate "." (p1 :: restP), some p0, none⟩
    | _ => ⟨table_name, db, none⟩
  else ⟨table_name, db, none⟩

/-- The `task_db` segment of `_extract_from_sql_file`: a truthy task-level
`database` parameter is applied to every source lacking a qualifier. -/
def applyTaskDatabase (task_def : Option TaskDef) (lineage : SQLLineage) :
    SQLLineage :=
  match task_def with
  | some td =>
    match td.database with
    | some db =>
      if db ≠ "" then
        { lineage with sources := lineage.sources.map fun s =>
            match s.database with
            | none => ⟨s.name, some db, s.schema⟩
            | some _ => s }
      else lineage
    | none => lineage
  | none => lineage

/-- The override segment of `_extract_from_sql_file`: for a resolved lineage,
a declared `create_table` parameter — or, failing that, `insert_into` —
replaces the targets. -/
def applyTargetOverride (task_def : Option TaskDef) (lineage : SQLLineage) :
    SQLLineage :=
  match task_def with
  | some td =>
    if lineage.resolved then
      match td.create_table with
      | some tn => { lineage with targets := [overrideTarget tn td.database] }
      | none =>
        match td.insert_into with
        | some tn => { lineage with targets := [overrideTarget tn td.database] }
        | none => lineage
    else lineage
  | none => lineage

/-- `WorkflowLineageExtractor._extract_from_sql_file`.  External effects are
arguments: `fileText` is the file's content (`none` = file not found),
`parse` is sqlglot, `render` the template engine's rendering.  The blanket
`except` of the source converts collaborator exceptions into an unresolved
record; the model's internals are total, so that branch has no counterpart. -/
def extractFromSqlFile (render : String → String)
    (parse : String → Except String (List Stmt))
    (sql_file : String) (fileText : Option String)
    (context : List (String × String)) (task_def : Option TaskDef) : SQLLineage :=
  match fileText with
  | none => ⟨[], [], false, [], some ("SQL file not found: " ++ sql_file)⟩
  | some sql_template =>
    let lineage :=
      if hasTemplates sql_template then
        let rb := resolveTemplate render context sql_template
        if rb.2 then extractTables (parse rb.1)
        else ⟨[], [], false, extractVariables sql_template, none⟩
      else extractTables (parse sql_template)
    applyTargetOverride task_def (applyTaskDatabase task_def lineage)

/-! ## Lineage graph (`lineage.LineageGraph`) -/

/-- Python-set insertion on lists. -/
def setAdd {α : Type} [DecidableEq α] (l : List α) (x : α) : List α :=
  if x ∈ l then l else l ++ [x]

/-- `dict.get(key, set())` on an association-list model of a Python dict. -/
def mapGetD {α : Type} (m : List (String × List α)) (k : String) : List α :=
  match m with
  | [] => []
  | (k', v) :: rest => if k' = k then v else mapGetD rest k

/-- `if key not in d: d[key] = set(); d[key].add(x)`. -/
def mapAdd {α : Type} [DecidableEq α] (m : List (String × List α)) (k : String)
    (x : α) : List (String × List α) :=
  match m with
  | [] => [(k, [x])]
  | (k', v) :: rest =>
    if k' = k then (k', setAdd v x) :: rest else (k', v) :: mapAdd rest k x

/-- `lineage.LineageGraph` (the `config` field only affects visualization and
is not modelled). -/
structure LineageGraph where
  task_lineages : List TaskLineage
  table_to_workflows : List (String × List String)
  table_to_tasks : List (String × List (String × String))
deriving Inhabited

def LineageGraph.empty : LineageGraph := ⟨[], [], []⟩

/-- `LineageGraph.add_task_lineage`. -/
def addTaskLineage (g : LineageGraph) (tl : TaskLineage) : LineageGraph :=
  let g' : LineageGraph :=
    ⟨g.task_lineages ++ [tl], g.table_to_workflows, g.table_to_tasks⟩
  match tl.lineage with
  | none => g'
  | some l =>
    l.sources.foldl (fun g src =>
      let tn := src.full_name
      ⟨g.task_lineages,
       mapAdd g.table_to_workflows tn tl.workflow_name,
       mapAdd g.table_to_tasks tn (tl.workflow_name, tl.task_name)⟩) g'

/-- `LineageGraph.get_upstream_tables`. -/
def LineageGraph.get_upstream_tables (g : LineageGraph) (table_name : String) :
    List String :=
  g.task_lineages.foldl (fun upstream tl =>
    match tl.lineage with
    | none => upstream
    | some l =>
      l.targets.foldl (fun upstream tgt =>
        if tgt.full_name = table_name then
          l.sources.foldl (fun u src => setAdd u src.full_name) upstream
        else upstream) upstream) []

/-- `LineageGraph.get_downstream_tables`. -/
def LineageGraph.get_downstream_tables (g : LineageGraph) (table_name : String) :
    List String :=
  g.task_lineages.foldl (fun downstream tl =>
    match tl.lineage with
    | none => downstream
    | some l =>
      l.sources.foldl (fun downstream src =>
        if src.full_name = table_name then
          l.targets.foldl (fun d tgt => setAdd d tgt.full_name) downstream
        else downstream) downstream) []

/-- `LineageGraph.get_workflows_for_table`. -/
def LineageGraph.get_workflows_for_table (g : LineageGraph) (table_name : String) :
    List String :=
  mapGetD g.table_to_workflows table_name

/-- `LineageGraph.get_all_tables`. -/
def LineageGraph.get_all_tables (g : LineageGraph) : List String :=
  g.task_lineages.foldl (fun tables tl =>
    match tl.lineage with
    | none => tables
    | some l =>
      let tables := l.sources.foldl (fun ts src => setAdd ts src.full_name) tables
      l.targets.foldl (fun ts tgt => setAdd ts tgt.full_name) tables) []

/-- A lineage graph built from a sequence of `add_task_lineage` calls. -/
def buildLineageGraph (records : List TaskLineage) : LineageGraph :=
  records.foldl addTaskLineage LineageGraph.empty

/-! ## Helper lemmas: lineage extraction -/

theorem applyTaskDatabase_resolved (td : Option TaskDef) (l : SQLLineage) :
    (applyTaskDatabase td l).resolved = l.resolved := by
  rcases td with _ | ⟨_ | db, ct, ii⟩
  · rfl
  · rfl
  · simp only [applyTaskDatabase]
    split <;> rfl

theorem applyTaskDatabase_targets (td : Option TaskDef) (l : SQLLineage) :
    (applyTaskDatabase td l).targets = l.targets := by
  rcases td with _ | ⟨_ | db, ct, ii⟩
  · rfl
  · rfl
  · simp only [applyTaskDatabase]
    split <;> rfl

theorem applyTaskDatabase_template_variables (td : Option TaskDef) (l : SQLLineage) :
    (applyTaskDatabase td l).template_variables = l.template_variables := by
  rcases td with _ | ⟨_ | db, ct, ii⟩
  · rfl
  · rfl
  · simp only [applyTaskDatabase]
    split <;> rfl

theorem applyTaskDatabase_sources_nil (td : Option TaskDef) (l : SQLLineage)
    (h : l.sources = []) : (applyTaskDatabase td l).sources = [] := by
  rcases td with _ | ⟨_ | db, ct, ii⟩
  · exact h
  · exact h
  · simp only [applyTaskDatabase]
    split
    · simp [h]
    · exact h

theorem applyTargetOverride_unresolved (td : Option TaskDef) (l : SQLLineage)
    (h : l.resolved = false) : applyTargetOverride td l = l := by
  rcases td with _ | ⟨db, ct, ii⟩
  · rfl
  · simp only [applyTargetOverride]
    simp [h]

theorem applyTargetOverride_resolved (td : Option TaskDef) (l : SQLLineage) :
    (applyTargetOverride td l).resolved = l.resolved := by
  rcases td with _ | ⟨db, _ | ct, _ | ii⟩
  · rfl
  all_goals simp only [applyTargetOverride]
  all_goals split <;> rfl

theorem extractTables_unresolved (pr : Except String (List Stmt))
    (h : (extractTables pr).resolved = false) :
    (extractTables pr).sources = [] ∧ (extractTables pr).targets = [] := by
  cases pr with
  | error e => exact ⟨rfl, rfl⟩
  | ok stmts =>
    cases stmts with
    | nil => exact ⟨rfl, rfl⟩
    | cons s rest => simp [extractTables] at h

theorem pipeline_unresolved (td : Option TaskDef) (L : SQLLineage)
    (hL : L.resolved = false → L.sources = [] ∧ L.targets = [])
    (h : (applyTargetOverride td (applyTaskDatabase td L)).resolved = false) :
    (applyTargetOverride td (applyTaskDatabase td L)).sources = []
    ∧ (applyTargetOverride td (applyTaskDatabase td L)).targets = [] := by
  have h1 : (applyTaskDatabase td L).resolved = false := by
    rw [applyTargetOverride_resolved] at h
    exact h
  have hres : L.resolved = false := by
    rw [applyTaskDatabase_resolved] at h1
    exact h1
  obtain ⟨hs, ht⟩ := hL hres
  rw [applyTargetOverride_unresolved td _ h1]
  refine ⟨applyTaskDatabase_sources_nil td L hs, ?_⟩
  rw [applyTaskDatabase_targets]
  exact ht

/-! ## Helper lemmas: lineage graph membership -/

theorem mem_setAdd {α : Type} [DecidableEq α] (l : List α) (x y : α) :
    y ∈ setAdd l x ↔ y ∈ l ∨ y = x := by
  unfold setAdd
  split
  · next h =>
    constructor
    · exact fun h' => Or.inl h'
    · rintro (h' | rfl)
      · exact h'
      · exact h
  · simp

theorem mem_foldl_setAdd {α β : Type} [DecidableEq β] (f : α → β) (l : List α)
    (acc : List β) (y : β) :
    y ∈ l.foldl (fun acc a => setAdd acc (f a)) acc
    ↔ y ∈ acc ∨ ∃ a ∈ l, f a = y := by
  induction l generalizing acc with
  | nil => simp
  | cons a t ih =>
    simp only [List.foldl_cons]
    rw [ih, mem_setAdd]
    simp only [List.mem_cons]
    constructor
    · rintro ((h | h) | ⟨b, hb, hf⟩)
      · exact Or.inl h
      · exact Or.inr ⟨a, Or.inl rfl, h.symm⟩
      · exact Or.inr ⟨b, Or.inr hb, hf⟩
    · rintro (h | ⟨b, (rfl | hb), hf⟩)
      · exact Or.inl (Or.inl h)
      · exact Or.inl (Or.inr hf.symm)
      · exact Or.inr ⟨b, hb, hf⟩

theorem mem_cond_fold (refs srcs : List TableReference) (t : String)
    (acc : List String) (y : String) :
    y ∈ refs.foldl (fun acc1 r =>
        if r.full_name = t then
          srcs.foldl (fun u s => setAdd u s.full_name) acc1
        else acc1) acc
    ↔ y ∈ acc ∨ ((∃ r ∈ refs, r.full_name = t) ∧ ∃ s ∈ srcs, s.full_name = y) := by
  induction refs generalizing acc with
  | nil => simp
  | cons r rest ih =>
    simp only [List.foldl_cons]
    by_cases hr : r.full_name = t
    · rw [if_pos hr, ih, mem_foldl_setAdd]
      simp only [List.mem_cons]
      constructor
      · rintro ((h | h) | h)
        · exact Or.inl h
        · exact Or.inr ⟨⟨r, Or.inl rfl, hr⟩, h⟩
        · exact Or.inr ⟨⟨h.1.choose, Or.inr h.1.choose_spec.1, h.1.choose_spec.2⟩, h.2⟩
      · rintro (h | ⟨⟨r', hr', hrt⟩, hs⟩)
        · exact Or.inl (Or.inl h)
        · exact Or.inl (Or.inr hs)
    · rw [if_neg hr, ih]
      simp only [List.mem_cons]
      constructor
      · rintro (h | ⟨⟨r', hr', hrt⟩, hs⟩)
        · exact Or.inl h
        · exact Or.inr ⟨⟨r', Or.inr hr', hrt⟩, hs⟩
      · rintro (h | ⟨⟨r', (rfl | hr'), hrt⟩, hs⟩)
        · exact Or.inl h
        · exact absurd hrt hr
        · exact Or.inr ⟨⟨r', hr', hrt⟩, hs⟩

theorem mem_scan_fold (sel1 sel2 : SQLLineage → List TableReference)
    (tls : List TaskLineage) (t : String) (acc : List String) (y : String) :
    y ∈ tls.foldl (fun acc0 tl =>
        match tl.lineage with
        | none => acc0
        | some l =>
          (sel1 l).foldl (fun acc1 r =>
            if r.full_name = t then
              (sel2 l).foldl (fun u s => setAdd u s.full_name) acc1
            else acc1) acc0) acc
    ↔ y ∈ acc ∨ ∃ tl ∈ tls, ∃ l, tl.lineage = some l
        ∧ (∃ r ∈ sel1 l, r.full_name = t) ∧ ∃ s ∈ sel2 l, s.full_name = y := by
  induction tls generalizing acc with
  | nil => simp
  | cons tl rest ih =>
    simp only [List.foldl_cons]
    cases hl : tl.lineage with
    | none =>
      dsimp only
      rw [ih]
      simp only [List.mem_cons]
      constructor
      · rintro (h | ⟨tl', htl', rest'⟩)
        · exact Or.inl h
        · exact Or.inr ⟨tl', Or.inr htl', rest'⟩
      · rintro (h | ⟨tl', (rfl | htl'), l, hsome, rest'⟩)
        · exact Or.inl h
        · exact absurd hsome (by rw [hl]; exact fun hc => Option.noConfusion hc)
        · exact Or.inr ⟨tl', htl', l, hsome, rest'⟩
    | some l =>
      dsimp only
      rw [ih, mem_cond_fold]
      simp only [List.mem_cons]
      constructor
      · rintro ((h | h) | ⟨tl', htl', rest'⟩)
        · exact Or.inl h
        · exact Or.inr ⟨tl, Or.inl rfl, l, hl, h⟩
        · exact Or.inr ⟨tl', Or.inr htl', rest'⟩
      · rintro (h | ⟨tl', (rfl | htl'), l', hsome, rest'⟩)
        · exact Or.inl (Or.inl h)
        · rw [hl] at hsome
          cases hsome
          exact Or.inl (Or.inr rest')
        · exact Or.inr ⟨tl', htl', l', hsome, rest'⟩

theorem mem_get_upstream (g : LineageGraph) (t y : String) :
    y ∈ g.get_upstream_tables t
    ↔ ∃ tl ∈ g.task_lineages, ∃ l, tl.lineage = some l
        ∧ (∃ r ∈ l.targets, r.full_name = t) ∧ ∃ s ∈ l.sources, s.full_name = y := by
  have h := mem_scan_fold (fun l => l.targets) (fun l => l.sources)
    g.task_lineages t [] y
  simpa [LineageGraph.get_upstream_tables] using h

theorem mem_get_downstream (g : LineageGraph) (t y : String) :
    y ∈ g.get_downstream_tables t
    ↔ ∃ tl ∈ g.task_lineages, ∃ l, tl.lineage = some l
        ∧ (∃ r ∈ l.sources, r.full_name = t) ∧ ∃ s ∈ l.targets, s.full_name = y := by
  have h := mem_scan_fold (fun l => l.sources) (fun l => l.targets)
    g.task_lineages t [] y
  simpa [LineageGraph.get_downstream_tables] using h

/-! ## Claim theorems: lineage extraction -/

/-- C3: every `SQLLineage` the extractor produces — `SQLParser.extract_tables`
on any parse outcome, or `WorkflowLineageExtractor._extract_from_sql_file` on
any input — has empty `sources` and `targets` whenever its `resolved` flag is
false. -/
theorem unresolved_lineage_has_empty_sources_and_targets :
    (∀ pr : Except String (List Stmt),
        (extractTables pr).resolved = false →
          (extractTables pr).sources = [] ∧ (extractTables pr).targets = [])
    ∧ (∀ (render : String → String) (parse : String → Except String (List Stmt))
        (sql_file : String) (fileText : Option String)
        (context : List (String × String)) (task_def : Option TaskDef),
        (extractFromSqlFile render parse sql_file fileText context
            task_def).resolved = false →
          (extractFromSqlFile render parse sql_file fileText context
            task_def).sources = []
          ∧ (extractFromSqlFile render parse sql_file fileText context
            task_def).targets = []) := by
  constructor
  · exact fun pr h => extractTables_unresolved pr h
  · intro render parse sql_file fileText context task_def h
    cases fileText with
    | none => exact ⟨rfl, rfl⟩
    | some text =>
      refine pipeline_unresolved task_def _ ?_ h
      intro hres
      by_cases hT : hasTemplates text = true
      · rw [if_pos hT] at hres ⊢
        by_cases hS : (resolveTemplate render context text).2 = true
        · rw [if_pos hS] at hres ⊢
          exact extractTables_unresolved _ hres
        · rw [if_neg hS] at hres ⊢
          exact ⟨rfl, rfl⟩
      · rw [if_neg hT] at hres ⊢
        exact extractTables_unresolved _ hres

theorem unresolved_lineage_witness :
    (extractFromSqlFile id (fun _ => .error "parse failure") "q.sql" none []
        none).resolved = false
    ∧ (extractFromSqlFile id (fun _ => .error "parse failure") "q.sql" none []
        none).sources = []
    ∧ (extractFromSqlFile id (fun _ => .error "parse failure") "q.sql" none []
        none).targets = [] :=
  ⟨rfl, unresolved_lineage_has_empty_sources_and_targets.2 id
    (fun _ => .error "parse failure") "q.sql" none [] none rfl⟩

/-- The external sqlglot parse outcome for the C4 counterexample: a single
INSERT statement targeting `db.out`. -/
def c4Parse : String → Except String (List Stmt) :=
  fun _ => .ok [⟨[], [⟨"out", some "db"⟩], .insert (some ⟨"out", some "db"⟩)⟩]

/-- A task definition declaring both `create_table: other.tbl` and
`insert_into: analytics.final_table`. -/
def c4TaskDef : TaskDef := ⟨none, some "other.tbl", some "analytics.final_table"⟩

/-- C4 counterexample: the claim fails as stated.  (a) A task declaring
`insert_into: analytics.final_table` *and* `create_table: other.tbl` gets
targets `{other.tbl}` — the `create_table` branch shadows `insert_into` in the
source's `if/elif`.  (b) When extraction is unresolved (here: missing file),
the override is skipped entirely and targets stay empty. -/
theorem insert_into_override_counterexample :
    ((extractFromSqlFile id c4Parse "q.sql" (some "INSERT INTO db.out SELECT 1")
        [] (some c4TaskDef)).targets.map TableReference.full_name = ["other.tbl"]
      ∧ (extractFromSqlFile id c4Parse "q.sql" (some "INSERT INTO db.out SELECT 1")
        [] (some c4TaskDef)).resolved = true)
    ∧ ((extractFromSqlFile id c4Parse "q.sql" none []
        (some ⟨none, none, some "analytics.final_table"⟩)).targets = []) := by
  exact ⟨⟨by decide, by decide⟩, rfl⟩

theorem applyTargetOverride_insert_into (td : TaskDef) (L : SQLLineage)
    (tn : String) (hres : L.resolved = true) (hct : td.create_table = none)
    (hii : td.insert_into = some tn) :
    applyTargetOverride (some td) L =
      { L with targets := [overrideTarget tn td.database] } := by
  rcases td with ⟨db, ct, ii⟩
  simp only at hct hii
  subst hct
  subst hii
  simp [applyTargetOverride, hres]

/-- C4 (amended): a task declaring `insert_into: analytics.final_table` and no
`create_table` forces targets = {`analytics.final_table`}, regardless of the
target the SQL parse inferred, provided the extraction resolved. -/
theorem insert_into_override_amended (render : String → String)
    (parse : String → Except String (List Stmt)) (sql_file : String)
    (fileText : Option String) (context : List (String × String)) (td : TaskDef)
    (hii : td.insert_into = some "analytics.final_table")
    (hct : td.create_table = none)
    (hres : (extractFromSqlFile render parse sql_file fileText context
        (some td)).resolved = true) :
    (extractFromSqlFile render parse sql_file fileText context
        (some td)).targets.map TableReference.full_name
      = ["analytics.final_table"] := by
  cases fileText with
  | none => exact absurd hres (by simp [extractFromSqlFile])
  | some text =>
    have key : extractFromSqlFile render parse sql_file (some text) context
        (some td)
        = applyTargetOverride (some td) (applyTaskDatabase (some td)
            (if hasTemplates text = true then
              (if (resolveTemplate render context text).2 = true then
                extractTables (parse (resolveTemplate render context text).1)
               else ⟨[], [], false, extractVariables text, none⟩)
             else extractTables (parse text))) := rfl
    rw [key] at hres ⊢
    have hLres : (applyTaskDatabase (some td)
        (if hasTemplates text = true then
          (if (resolveTemplate render context text).2 = true then
            extractTables (parse (resolveTemplate render context text).1)
           else ⟨[], [], false, extractVariables text, none⟩)
         else extractTables (parse text))).resolved = true := by
      rw [applyTargetOverride_resolved] at hres
      exact hres
    rw [applyTargetOverride_insert_into td _ _ hLres hct hii]
    have hov : overrideTarget "analytics.final_table" td.database
        = ⟨"final_table", some "analytics", none⟩ := rfl
    simp only [hov, List.map_cons, List.map_nil, TableReference.full_name,
      Option.toList]
    rfl

theorem insert_into_override_amended_witness :
    ((⟨none, none, some "analytics.final_table"⟩ : TaskDef).insert_into
        = some "analytics.final_table"
      ∧ (⟨none, none, some "analytics.final_table"⟩ : TaskDef).create_table = none
      ∧ (extractFromSqlFile id c4Parse "q.sql"
          (some "INSERT INTO db.out SELECT 1") []
          (some ⟨none, none, some "analytics.final_table"⟩)).resolved = true)
    ∧ (extractFromSqlFile id c4Parse "q.sql"
        (some "INSERT INTO db.out SELECT 1") []
        (some ⟨none, none, some "analytics.final_table"⟩)).targets.map
          TableReference.full_name = ["analytics.final_table"] :=
  ⟨⟨rfl, rfl, by decide⟩,
    insert_into_override_amended id c4Parse "q.sql"
      (some "INSERT INTO db.out SELECT 1") [] ⟨none, none, some "analytics.final_table"⟩
      rfl rfl (by decide)⟩

/-- Modelled from the spec: the external SQL parser's (sqlglot's) statement
abstraction for
`"WITH cte1 AS (SELECT * FROM db.real_table) INSERT INTO db.out SELECT * FROM cte1"` —
one INSERT statement whose whole-tree CTE aliases are `cte1`, whose whole-tree
table nodes are the insert target `db.out`, the CTE body's `db.real_table` and
the CTE reference `cte1`, and whose insert target node is `db.out`. -/
def cteExampleParse : List Stmt :=
  [⟨["cte1"],
    [⟨"out", some "db"⟩, ⟨"real_table", some "db"⟩, ⟨"cte1", none⟩],
    .insert (some ⟨"out", some "db"⟩)⟩]

/-- C6: on the CTE example, `extract_tables` resolves with sources exactly
`{db.real_table}` and targets exactly `{db.out}`, and the CTE alias `cte1`
appears in neither. -/
theorem cte_alias_excluded_from_lineage :
    (extractTables (.ok cteExampleParse)).resolved = true
    ∧ (extractTables (.ok cteExampleParse)).sources.map TableReference.full_name
        = ["db.real_table"]
    ∧ (extractTables (.ok cteExampleParse)).targets.map TableReference.full_name
        = ["db.out"]
    ∧ ∀ r ∈ (extractTables (.ok cteExampleParse)).sources
        ++ (extractTables (.ok cteExampleParse)).targets,
        r.name ≠ "cte1" ∧ r.full_name ≠ "cte1" := by
  decide

/-- C10: a `TaskLineage` whose `lineage` is `None` is appended to
`task_lineages` but leaves both index maps unchanged and contributes nothing
to any query. -/
theorem none_lineage_record_is_inert (g : LineageGraph) (tl : TaskLineage)
    (h : tl.lineage = none) :
    (addTaskLineage g tl).task_lineages = g.task_lineages ++ [tl]
    ∧ (addTaskLineage g tl).table_to_workflows = g.table_to_workflows
    ∧ (addTaskLineage g tl).table_to_tasks = g.table_to_tasks
    ∧ (∀ t, (addTaskLineage g tl).get_upstream_tables t
        = g.get_upstream_tables t)
    ∧ (∀ t, (addTaskLineage g tl).get_downstream_tables t
        = g.get_downstream_tables t)
    ∧ (addTaskLineage g tl).get_all_tables = g.get_all_tables
    ∧ (∀ t, (addTaskLineage g tl).get_workflows_for_table t
        = g.get_workflows_for_table t) := by
  have hadd : addTaskLineage g tl
      = ⟨g.task_lineages ++ [tl], g.table_to_workflows, g.table_to_tasks⟩ := by
    simp [addTaskLineage, h]
  refine ⟨by rw [hadd], by rw [hadd], by rw [hadd], ?_, ?_, ?_, ?_⟩
  · intro t
    rw [hadd]
    simp [LineageGraph.get_upstream_tables, List.foldl_append, h]
  · intro t
    rw [hadd]
    simp [LineageGraph.get_downstream_tables, List.foldl_append, h]
  · rw [hadd]
    simp [LineageGraph.get_all_tables, List.foldl_append, h]
  · intro t
    rw [hadd]
    rfl

/-- C5: if `B` is among `get_downstream_tables(A)` then `A` is among
`get_upstream_tables(B)`, for every graph built by a sequence of
`add_task_lineage` calls — both queries scan the same task-lineage records. -/
theorem upstream_downstream_symmetry (records : List TaskLineage) (A B : String)
    (h : B ∈ (buildLineageGraph records).get_downstream_tables A) :
    A ∈ (buildLineageGraph records).get_upstream_tables B := by
  rw [mem_get_downstream] at h
  rw [mem_get_upstream]
  obtain ⟨tl, htl, l, hsome, hsrc, htgt⟩ := h
  exact ⟨tl, htl, l, hsome, htgt, hsrc⟩

theorem upstream_downstream_symmetry_witness :
    "cur.ev" ∈ (buildLineageGraph
        [⟨"+t", "wf", none,
          some ⟨[⟨"ev", some "raw", none⟩], [⟨"ev", some "cur", none⟩],
            true, [], none⟩⟩]).get_downstream_tables "raw.ev"
    ∧ "raw.ev" ∈ (buildLineageGraph
        [⟨"+t", "wf", none,
          some ⟨[⟨"ev", some "raw", none⟩], [⟨"ev", some "cur", none⟩],
            true, [], none⟩⟩]).get_upstream_tables "cur.ev" :=
  ⟨by decide,
    upstream_downstream_symmetry
      [⟨"+t", "wf", none,
        some ⟨[⟨"ev", some "raw", none⟩], [⟨"ev", some "cur", none⟩],
          true, [], none⟩⟩] "raw.ev" "cur.ev" (by decide)⟩

/-! ## C9: unresolvable template variables -/

/-- The characters of the template expression `{{ undefined_var }}`. -/
def undefVarPat : List Char := "{{ undefined_var }}".data

theorem matchJinja_undefVarPat (l2 : List Char) :
    matchJinja (undefVarPat ++ l2) = some ("undefined_var", l2) := rfl

theorem findAllJinja_append_pat (l1 l2 : List Char) :
    "undefined_var" ∈ findAllJinja (l1 ++ (undefVarPat ++ l2)) := by
  induction l1 with
  | nil =>
    rw [List.nil_append]
    have h : findAllJinja (undefVarPat ++ l2)
        = "undefined_var" :: findAllJinja ('{' :: (" undefined_var \x7d\x7d".data ++ l2)) := rfl
    rw [h]
    exact List.mem_cons_self _ _
  | cons c cs ih =>
    rw [List.cons_append]
    simp only [findAllJinja]
    exact List.mem_append_right _ ih

theorem findAllJinja_of_infix (text : String) (h : undefVarPat <:+: text.data) :
    "undefined_var" ∈ findAllJinja text.data := by
  obtain ⟨s, t, hst⟩ := h
  rw [← hst, List.append_assoc]
  exact findAllJinja_append_pat s t

theorem containsL_braces (l1 rest : List Char) :
    containsL (l1 ++ '{' :: '{' :: rest) ['{', '{'] = true := by
  induction l1 with
  | nil => rfl
  | cons c cs ih =>
    rw [List.cons_append]
    show (_ || containsL (cs ++ '{' :: '{' :: rest) ['{', '{']) = true
    rw [ih, Bool.or_true]

theorem hasTemplates_of_infix (text : String) (h : undefVarPat <:+: text.data) :
    hasTemplates text = true := by
  obtain ⟨s, t, hst⟩ := h
  unfold hasTemplates
  have hpat : undefVarPat = '{' :: '{' :: " undefined_var \x7d\x7d".data := rfl
  rw [hpat] at hst
  have hcs : containsL text.data ['{', '{'] = true := by
    rw [← hst]
    have hassoc : s ++ ('{' :: '{' :: " undefined_var \x7d\x7d".data) ++ t
        = s ++ '{' :: '{' :: (" undefined_var \x7d\x7d".data ++ t) := by
      simp [List.append_assoc]
    rw [hassoc]
    exact containsL_braces s _
  rw [hcs, Bool.true_or]

theorem mem_dedup (l : List String) (y : String) : y ∈ dedup l ↔ y ∈ l := by
  suffices h : ∀ acc : List String,
      y ∈ l.foldl (fun acc s => if s ∈ acc then acc else acc ++ [s]) acc
      ↔ y ∈ acc ∨ y ∈ l by
    simpa [dedup] using h []
  induction l with
  | nil => simp
  | cons s t ih =>
    intro acc
    simp only [List.foldl_cons]
    rw [ih]
    by_cases hs : s ∈ acc
    · rw [if_pos hs]
      simp only [List.mem_cons]
      constructor
      · rintro (h | h)
        · exact Or.inl h
        · exact Or.inr (Or.inr h)
      · rintro (h | (rfl | h))
        · exact Or.inl h
        · exact Or.inl hs
        · exact Or.inr h
    · rw [if_neg hs]
      simp only [List.mem_append, List.mem_cons, List.not_mem_nil, or_false]
      tauto

theorem resolveTemplate_fails (render : String → String)
    (context : List (String × String)) (text : String)
    (hmem : "undefined_var" ∈ findAllJinja text.data)
    (hctx : context.lookup "undefined_var" = none) :
    resolveTemplate render context text = (text, false) := by
  unfold resolveTemplate
  rw [if_neg]
  intro hall
  rw [List.all_eq_true] at hall
  have h2 := hall "undefined_var" hmem
  rw [hctx] at h2
  simp at h2

/-- C9: a SQL file whose text contains the template expression
`{{ undefined_var }}`, extracted under a variable context with no entry for
`undefined_var`, yields an unresolved lineage whose `template_variables`
contain `"undefined_var"` and whose sources and targets are empty.  (The
template engine is the spec-modelled `resolveTemplate`.) -/
theorem undefined_template_variable_unresolved (render : String → String)
    (parse : String → Except String (List Stmt)) (sql_file : String)
    (text : String) (context : List (String × String)) (task_def : Option TaskDef)
    (hinf : undefVarPat <:+: text.data)
    (hctx : context.lookup "undefined_var" = none) :
    (extractFromSqlFile render parse sql_file (some text) context
        task_def).resolved = false
    ∧ "undefined_var" ∈ (extractFromSqlFile render parse sql_file (some text)
        context task_def).template_variables
    ∧ (extractFromSqlFile render parse sql_file (some text) context
        task_def).sources = []
    ∧ (extractFromSqlFile render parse sql_file (some text) context
        task_def).targets = [] := by
  have hmem : "undefined_var" ∈ findAllJinja text.data :=
    findAllJinja_of_infix text hinf
  have hT : hasTemplates text = true := hasTemplates_of_infix text hinf
  have hres := resolveTemplate_fails render context text hmem hctx
  have key : extractFromSqlFile render parse sql_file (some text) context task_def
      = applyTargetOverride task_def (applyTaskDatabase task_def
          ⟨[], [], false, extractVariables text, none⟩) := by
    show applyTargetOverride task_def (applyTaskDatabase task_def
        (if hasTemplates text = true then
          (if (resolveTemplate render context text).2 = true then
            extractTables (parse (resolveTemplate render context text).1)
           else ⟨[], [], false, extractVariables text, none⟩)
         else extractTables (parse text))) = _
    rw [if_pos hT, hres]
    simp
  have hdb : (applyTaskDatabase task_def
      ⟨[], [], false, extractVariables text, none⟩).resolved = false := by
    rw [applyTaskDatabase_resolved]
  have hover := applyTargetOverride_unresolved task_def _ hdb
  rw [key, hover]
  refine ⟨hdb, ?_, ?_, ?_⟩
  · rw [applyTaskDatabase_template_variables]
    show "undefined_var" ∈ extractVariables text
    rw [extractVariables, mem_dedup]
    exact List.mem_append_left _ hmem
  · exact applyTaskDatabase_sources_nil task_def _ rfl
  · rw [applyTaskDatabase_targets]

theorem undefined_template_variable_witness :
    (undefVarPat <:+: "SELECT * FROM {{ undefined_var }}".data
      ∧ ([("session_date", "2024-01-01")] : List (String × String)).lookup
          "undefined_var" = none)
    ∧ ((extractFromSqlFile id (fun _ => .error "e") "q.sql"
          (some "SELECT * FROM {{ undefined_var }}")
          [("session_date", "2024-01-01")] none).resolved = false
        ∧ "undefined_var" ∈ (extractFromSqlFile id (fun _ => .error "e") "q.sql"
          (some "SELECT * FROM {{ undefined_var }}")
          [("session_date", "2024-01-01")] none).template_variables
        ∧ (extractFromSqlFile id (fun _ => .error "e") "q.sql"
          (some "SELECT * FROM {{ undefined_var }}")
          [("session_date", "2024-01-01")] none).sources = []
        ∧ (extractFromSqlFile id (fun _ => .error "e") "q.sql"
          (some "SELECT * FROM {{ undefined_var }}")
          [("session_date", "2024-01-01")] none).targets = []) :=
  ⟨⟨by decide, rfl⟩,
    undefined_template_variable_unresolved id (fun _ => .error "e") "q.sql"
      "SELECT * FROM {{ undefined_var }}" [("session_date", "2024-01-01")] none
      (by decide) rfl⟩

/-! ## C8: indexing of source tables in `add_task_lineage` -/

theorem mapGetD_mapAdd {α : Type} [DecidableEq α]
    (m : List (String × List α)) (k : String) (x : α) (k' : String) :
    mapGetD (mapAdd m k x) k'
      = if k' = k then setAdd (mapGetD m k) x else mapGetD m k' := by
  induction m with
  | nil =>
    by_cases h : k' = k
    · subst h
      simp [mapAdd, mapGetD, setAdd]
    · have h' : ¬k = k' := fun hc => h hc.symm
      simp [mapAdd, mapGetD, h, h']
  | cons hd t ih =>
    obtain ⟨k1, v1⟩ := hd
    by_cases h1 : k1 = k
    · subst h1
      by_cases h2 : k' = k1
      · subst h2
        simp [mapAdd, mapGetD]
      · have h2' : ¬k1 = k' := fun hc => h2 hc.symm
        simp [mapAdd, mapGetD, h2, h2']
    · by_cases h2 : k' = k1
      · have hk'k : ¬k' = k := fun hc => h1 (h2.symm.trans hc)
        simp [mapAdd, mapGetD, h1, h2, hk'k]
      · have h2' : ¬k1 = k' := fun hc => h2 hc.symm
        simp [mapAdd, mapGetD, h1, h2, h2', ih]

theorem addTaskLineage_t2w (g : LineageGraph) (tl : TaskLineage) (l : SQLLineage)
    (hl : tl.lineage = some l) :
    (addTaskLineage g tl).table_to_workflows
      = l.sources.foldl (fun m src => mapAdd m src.full_name tl.workflow_name)
          g.table_to_workflows := by
  simp only [addTaskLineage, hl]
  suffices hgen : ∀ g0 : LineageGraph,
      (l.sources.foldl (fun g src =>
        ⟨g.task_lineages,
         mapAdd g.table_to_workflows src.full_name tl.workflow_name,
         mapAdd g.table_to_tasks src.full_name
           (tl.workflow_name, tl.task_name)⟩) g0).table_to_workflows
      = l.sources.foldl (fun m src => mapAdd m src.full_name tl.workflow_name)
          g0.table_to_workflows by
    exact hgen _
  intro g0
  induction l.sources generalizing g0 with
  | nil => rfl
  | cons s rest ih => simp only [List.foldl_cons, ih]

theorem mem_mapGetD_fold (sources : List TableReference) (wfname : String)
    (m0 : List (String × List String)) (X w : String) :
    w ∈ mapGetD (sources.foldl (fun m src => mapAdd m src.full_name wfname) m0) X
    ↔ w ∈ mapGetD m0 X ∨ ((∃ s ∈ sources, s.full_name = X) ∧ wfname = w) := by
  induction sources generalizing m0 with
  | nil => simp
  | cons s rest ih =>
    simp only [List.foldl_cons]
    rw [ih, mapGetD_mapAdd]
    by_cases hX : X = s.full_name
    · rw [if_pos hX, ← hX, mem_setAdd]
      simp only [List.mem_cons]
      constructor
      · rintro ((h | h) | ⟨⟨s', hs', hsx⟩, rfl⟩)
        · exact Or.inl h
        · exact Or.inr ⟨⟨s, Or.inl rfl, hX.symm⟩, h.symm⟩
        · exact Or.inr ⟨⟨s', Or.inr hs', hsx⟩, rfl⟩
      · rintro (h | ⟨⟨s', hs', hsx⟩, rfl⟩)
        · exact Or.inl (Or.inl h)
        · exact Or.inl (Or.inr rfl)
    · rw [if_neg hX]
      simp only [List.mem_cons]
      constructor
      · rintro (h | ⟨⟨s', hs', hsx⟩, rfl⟩)
        · exact Or.inl h
        · exact Or.inr ⟨⟨s', Or.inr hs', hsx⟩, rfl⟩
      · rintro (h | ⟨⟨s', (rfl | hs'), hsx⟩, rfl⟩)
        · exact Or.inl h
        · exact absurd hsx.symm hX
        · exact Or.inr ⟨⟨s', hs', hsx⟩, rfl⟩

theorem mem_workflows_addTaskLineage (g : LineageGraph) (tl : TaskLineage)
    (X w : String) :
    w ∈ (addTaskLineage g tl).get_workflows_for_table X
    ↔ w ∈ g.get_workflows_for_table X
      ∨ ∃ l, tl.lineage = some l ∧ (∃ s ∈ l.sources, s.full_name = X)
          ∧ tl.workflow_name = w := by
  cases hl : tl.lineage with
  | none =>
    have ht2w : (addTaskLineage g tl).table_to_workflows
        = g.table_to_workflows := by
      simp [addTaskLineage, hl]
    unfold LineageGraph.get_workflows_for_table
    rw [ht2w]
    simp [hl]
  | some l =>
    unfold LineageGraph.get_workflows_for_table
    rw [addTaskLineage_t2w g tl l hl, mem_mapGetD_fold]
    simp [hl]

/-- C8 counterexample: the indexing is *not* guarded by `resolved` — the
guard in `add_task_lineage` only checks that `lineage` is not `None`.  A
record carrying an unresolved lineage that nonetheless lists a source table
is indexed into `table_to_workflows`. -/
theorem source_indexing_counterexample :
    ((⟨"+t1", "wf1", some "q.sql",
        some ⟨[⟨"tbl_a", some "db", none⟩], [], false, [], none⟩⟩ :
        TaskLineage).lineage.map SQLLineage.resolved = some false)
    ∧ (addTaskLineage LineageGraph.empty
        ⟨"+t1", "wf1", some "q.sql",
          some ⟨[⟨"tbl_a", some "db", none⟩], [], false, [], none⟩⟩
        ).get_workflows_for_table "db.tbl_a" = ["wf1"] := by
  decide

/-- C8 (amended): `add_task_lineage` indexes a record's source tables
whenever the record carries a lineage (`None` is skipped; `resolved` is not
consulted), and never indexes target tables; consequently
`get_workflows_for_table(X)` reports exactly the workflows of records whose
lineage lists `X` among its *sources* — never workflows that only write `X`. -/
theorem source_indexing_amended (records : List TaskLineage) (X w : String) :
    w ∈ (buildLineageGraph records).get_workflows_for_table X
    ↔ ∃ tl ∈ records, ∃ l, tl.lineage = some l
        ∧ (∃ s ∈ l.sources, s.full_name = X) ∧ tl.workflow_name = w := by
  suffices hgen : ∀ g0 : LineageGraph,
      w ∈ (records.foldl addTaskLineage g0).get_workflows_for_table X
      ↔ w ∈ g0.get_workflows_for_table X
        ∨ ∃ tl ∈ records, ∃ l, tl.lineage = some l
            ∧ (∃ s ∈ l.sources, s.full_name = X) ∧ tl.workflow_name = w by
    rw [buildLineageGraph, hgen]
    simp [LineageGraph.empty, LineageGraph.get_workflows_for_table, mapGetD]
  intro g0
  induction records generalizing g0 with
  | nil => simp
  | cons tl rest ih =>
    simp only [List.foldl_cons]
    rw [ih, mem_workflows_addTaskLineage]
    simp only [List.mem_cons]
    constructor
    · rintro ((h | ⟨l, hsome, hs, hw⟩) | ⟨tl', htl', rest'⟩)
      · exact Or.inl h
      · exact Or.inr ⟨tl, Or.inl rfl, l, hsome, hs, hw⟩
      · exact Or.inr ⟨tl', Or.inr htl', rest'⟩
    · rintro (h | ⟨tl', (rfl | htl'), l, hsome, hs, hw⟩)
      · exact Or.inl (Or.inl h)
      · exact Or.inl (Or.inr ⟨l, hsome, hs, hw⟩)
      · exact Or.inr ⟨tl', htl', l, hsome, hs, hw⟩

/-! ## C2: sequential chains -/

/-- C2: for a workflow whose top-level tasks are N plain leaf tasks (no
parallel flags, no directive sub-trees, no children), the walker emits
exactly the N−1 sequential edges task i → task i+1, and `build_graph` adds
exactly one edge from the synthetic root node to task 1 (rendered with the
default unlimited depth). -/
theorem sequential_chain_edges (doc : List (String × Val)) (wf : String)
    (k1 : String) (b1 : Val) (rest : List (String × Val))
    (htop : doc.filter (fun p => isTaskKey p.1) = (k1, b1) :: rest)
    (hleaf : ∀ t ∈ (k1, b1) :: rest, isPlainLeaf t.2 = true) :
    (buildGraph doc wf none).2
      = chainEdges [wf] (((k1, b1) :: rest).map Prod.fst)
        ++ [seqEdge (rootId wf) (normalizedId [wf] k1)]
    ∧ (chainEdges [wf] (((k1, b1) :: rest).map Prod.fst)).length
        = ((k1, b1) :: rest).length - 1 := by
  have key : (buildGraph doc wf none).2
      = (renderTasks [wf] (doc.filter fun p => isTaskKey p.1) none 0 false).edges
        ++ (match doc.filter (fun p => isTaskKey p.1) with
            | [] => ([] : List GEdge)
            | (k, _) :: _ => [seqEdge (rootId wf) (normalizedId [wf] k)]) := rfl
  have hseq := (renderLoop_seq_leaves none [wf] 0 ((k1, b1) :: rest) [] hleaf).1
  constructor
  · rw [key, htop]
    have hrt : renderTasks [wf] ((k1, b1) :: rest) none 0 false
        = renderLoop none [wf] 0 false [] ((k1, b1) :: rest) := rfl
    rw [hrt, hseq]
    simp
  · rw [chainEdges_length, List.length_map]

/-- A three-task sequential workflow document. -/
def c2Doc : List (String × Val) :=
  [("+a", .dict [("sh>", .str "run.sh")]),
   ("+b", .dict [("td>", .str "q.sql")]),
   ("+c", .dict []),
   ("timezone", .str "UTC")]

theorem sequential_chain_edges_witness :
    (c2Doc.filter (fun p => isTaskKey p.1)
        = [("+a", Val.dict [("sh>", Val.str "run.sh")]),
           ("+b", Val.dict [("td>", Val.str "q.sql")]),
           ("+c", Val.dict [])]
      ∧ ∀ t ∈ [("+a", Val.dict [("sh>", Val.str "run.sh")]),
           ("+b", Val.dict [("td>", Val.str "q.sql")]),
           ("+c", Val.dict [])], isPlainLeaf t.2 = true)
    ∧ ((buildGraph c2Doc "wf" none).2
        = chainEdges ["wf"]
            ([("+a", Val.dict [("sh>", Val.str "run.sh")]),
              ("+b", Val.dict [("td>", Val.str "q.sql")]),
              ("+c", Val.dict [])].map Prod.fst)
          ++ [seqEdge (rootId "wf") (normalizedId ["wf"] "+a")]
      ∧ (chainEdges ["wf"]
          ([("+a", Val.dict [("sh>", Val.str "run.sh")]),
            ("+b", Val.dict [("td>", Val.str "q.sql")]),
            ("+c", Val.dict [])].map Prod.fst)).length
        = ([("+a", Val.dict [("sh>", Val.str "run.sh")]),
            ("+b", Val.dict [("td>", Val.str "q.sql")]),
            ("+c", Val.dict [])] : List (String × Val)).length - 1) :=
  ⟨⟨rfl, by decide⟩,
    sequential_chain_edges c2Doc "wf" "+a" (Val.dict [("sh>", Val.str "run.sh")])
      [("+b", Val.dict [("td>", Val.str "q.sql")]), ("+c", Val.dict [])]
      rfl (by decide)⟩

theorem none_lineage_record_witness :
    (⟨"+t1", "wf1", some "x.sql", none⟩ : TaskLineage).lineage = none
    ∧ ((addTaskLineage (buildLineageGraph
          [⟨"+t0", "wf0", none,
            some ⟨[⟨"a_tbl", some "db", none⟩], [⟨"b_tbl", some "db", none⟩],
              true, [], none⟩⟩])
          ⟨"+t1", "wf1", some "x.sql", none⟩).get_all_tables
        = (buildLineageGraph
          [⟨"+t0", "wf0", none,
            some ⟨[⟨"a_tbl", some "db", none⟩], [⟨"b_tbl", some "db", none⟩],
              true, [], none⟩⟩]).get_all_tables) :=
  ⟨rfl,
    (none_lineage_record_is_inert
      (buildLineageGraph
        [⟨"+t0", "wf0", none,
          some ⟨[⟨"a_tbl", some "db", none⟩], [⟨"b_tbl", some "db", none⟩],
            true, [], none⟩⟩])
      ⟨"+t1", "wf1", some "x.sql", none⟩ rfl).2.2.2.2.2.1⟩

/-! ## Parallel containers and depth limiting -/

theorem renderLoop_par_last (maxD : Option Nat) (stack : List String) (c : Nat)
    (prev : List (List String)) (tasks : List (String × Val)) :
    (renderLoop maxD stack c true prev tasks).last
      = (tasks.map fun t => (renderLoop maxD stack c true prev [t]).last).flatten := by
  induction tasks with
  | nil => simp [renderLoop]
  | cons t rest ih =>
    obtain ⟨k, b⟩ := t
    cases b
    all_goals
      simp only [renderLoop, List.map_cons, List.flatten_cons, Bool.true_eq_false,
        ↓reduceIte, ↓reduceDIte, List.append_nil]
      rw [ih]


theorem renderLoop_par_entry (maxD : Option Nat) (stack : List String)
    (c : Nat) (hst : stack ≠ []) (prev : List (List String))
    (cs : List (String × Val)) :
    ∀ t ∈ cs, seqEdge stack (normalizedId stack t.1)
      ∈ (renderLoop maxD stack c true prev cs).edges := by
  have hie : stack.isEmpty = false := by
    cases stack
    · exact absurd rfl hst
    · rfl
  induction cs with
  | nil => simp
  | cons hd rest ih =>
    intro t ht
    obtain ⟨k, b⟩ := hd
    rcases List.mem_cons.mp ht with rfl | ht'
    · cases b
      all_goals
        simp only [renderLoop, List.mem_append, hie, Bool.not_false,
          Bool.and_true, Bool.true_and, Bool.not_true, Bool.and_false,
          ↓reduceIte, List.mem_singleton]
        simp
    · cases b
      all_goals
        simp only [renderLoop, List.mem_append, ↓reduceIte]
        first
        | exact ih t ht'
        | exact Or.inr (ih t ht')


theorem renderLoop_par_leaf_last (maxD : Option Nat) (stack : List String)
    (c : Nat) (prev : List (List String)) (cs : List (String × Val))
    (hleaf : ∀ t ∈ cs, isLeafTask t.2 = true) :
    (renderLoop maxD stack c true prev cs).last
      = cs.map fun t => normalizedId stack t.1 := by
  induction cs with
  | nil => simp [renderLoop]
  | cons hd rest ih =>
    obtain ⟨k, b⟩ := hd
    have hhd := hleaf (k, b) (List.mem_cons_self _ _)
    have ihr := ih fun t ht => hleaf t (List.mem_cons_of_mem _ ht)
    cases b
    case dict entries =>
      have hemp : (childTasks entries).isEmpty = true := hhd
      simp only [renderLoop, hemp, ↓reduceIte, List.map_cons]
      rw [ihr]
      rfl
    all_goals
      simp only [renderLoop, List.map_cons, ↓reduceIte]
      rw [ihr]
      rfl


theorem renderLoop_par_edge_classes (maxD : Option Nat) (stack : List String)
    (c : Nat) (prev : List (List String)) (cs : List (String × Val)) :
    ∀ e ∈ (renderLoop maxD stack c true prev cs).edges,
      e.src = stack ∨ e.src = e.tgt
      ∨ (∃ t ∈ cs, e.tgt = normalizedId stack (t.1 ++ "__error")
          ∧ e.src = normalizedId stack t.1)
      ∨ stack.length + 1 < e.tgt.length := by
  induction cs with
  | nil => simp [renderLoop]
  | cons hd rest ih0 =>
    intro e he
    obtain ⟨k, b⟩ := hd
    have weaken : (e.src = stack ∨ e.src = e.tgt
        ∨ (∃ t ∈ rest, e.tgt = normalizedId stack (t.1 ++ "__error")
            ∧ e.src = normalizedId stack t.1)
        ∨ stack.length + 1 < e.tgt.length) →
        e.src = stack ∨ e.src = e.tgt
        ∨ (∃ t ∈ (k, b) :: rest, e.tgt = normalizedId stack (t.1 ++ "__error")
            ∧ e.src = normalizedId stack t.1)
        ∨ stack.length + 1 < e.tgt.length := by
      rintro (h | h | ⟨t, ht, h1, h2⟩ | h)
      · exact Or.inl h
      · exact Or.inr (Or.inl h)
      · exact Or.inr (Or.inr (Or.inl ⟨t, List.mem_cons_of_mem _ ht, h1, h2⟩))
      · exact Or.inr (Or.inr (Or.inr h))
    cases b
    case dict entries =>
      simp only [renderLoop, List.mem_append, Bool.not_true, Bool.and_false,
        Bool.false_eq_true, ↓reduceIte, List.not_mem_nil, false_or] at he
      rcases he with ((((h | h) | h) | h) | h) | h
      · -- parentEdges
        split at h
        · rw [List.mem_singleton] at h
          subst h
          exact Or.inl rfl
        · exact absurd h (List.not_mem_nil e)
      · -- loopEdges
        obtain ⟨lp, hlp, rfl⟩ := List.mem_map.mp h
        exact Or.inr (Or.inl rfl)
      · -- retryEdges
        split at h
        · rw [List.mem_singleton] at h
          subst h
          exact Or.inr (Or.inl rfl)
        · exact absurd h (List.not_mem_nil e)
      · -- errEdges
        split at h
        · rw [List.mem_singleton] at h
          subst h
          exact Or.inr (Or.inr (Or.inl
            ⟨(k, Val.dict entries), List.mem_cons_self _ _, rfl, rfl⟩))
        · exact absurd h (List.not_mem_nil e)
      · -- child subtree edges
        split at h
        · exact absurd h (List.not_mem_nil e)
        · split at h
          · exact absurd h (List.not_mem_nil e)
          · have hend := (renderLoop_endpoints maxD (normalizedId stack k)
              (c + 1) (valTruthy (dget entries "_parallel")) [] (childTasks entries)
              (fun p hp => absurd hp (List.not_mem_nil p))).1 e h
            refine Or.inr (Or.inr (Or.inr ?_))
            have hlen : (normalizedId stack k).length = stack.length + 1 := by
              simp [normalizedId]
            rw [hlen] at hend
            exact hend.2.2
      · -- rest
        exact weaken (ih0 e h)
    all_goals
      simp only [renderLoop, List.mem_append, Bool.not_true, Bool.and_false,
        Bool.false_eq_true, ↓reduceIte, List.not_mem_nil, false_or] at he
      rcases he with h | h
      · split at h
        · rw [List.mem_singleton] at h
          subst h
          exact Or.inl rfl
        · exact absurd h (List.not_mem_nil e)
      · exact weaken (ih0 e h)


theorem normalizedId_inj (st : List String) (a b : String)
    (h : normalizedId st a = normalizedId st b) : a = b := by
  simp only [normalizedId] at h
  have h2 := List.append_cancel_left h
  exact List.head_eq_of_cons_eq h2


/-- C1: for a container task at stack `S` flagged `_parallel` with a nonempty
child list (and the depth limit not cutting the children off), the walker:
(i) returns to the container's parent exactly the children's completion
points, (ii) gives every child an incoming edge straight from the container's
entry node, (iii) makes that returned completion list the concatenation (union)
of the per-child completion lists, (iv) — provided no child key is another
child key with `"__error"` appended — gives no child an incoming edge from a
sibling: any edge into a child comes from the container entry or is a
self-loop, and (v) when all children are leaves the completion list has
exactly one point per child (cardinality ≥ K). -/
theorem parallel_container_semantics (S : List String) (k : String)
    (entries : List (String × Val)) (maxD : Option Nat) (d : Nat)
    (hpar : valTruthy (dget entries "_parallel") = true)
    (hne : childTasks entries ≠ [])
    (hcut : depthCut maxD (d + 1) = false) :
    ((renderTasks S [(k, Val.dict entries)] maxD d false).last
        = (renderTasks (S ++ [k]) (childTasks entries) maxD (d + 1) true).last)
    ∧ (∀ t ∈ childTasks entries,
        seqEdge (normalizedId S k) (normalizedId (S ++ [k]) t.1)
          ∈ (renderTasks (S ++ [k]) (childTasks entries) maxD (d + 1) true).edges)
    ∧ ((renderTasks (S ++ [k]) (childTasks entries) maxD (d + 1) true).last
        = ((childTasks entries).map fun t =>
            (renderTasks (S ++ [k]) [t] maxD (d + 1) true).last).flatten)
    ∧ ((∀ k1 ∈ (childTasks entries).map Prod.fst,
          ∀ k2 ∈ (childTasks entries).map Prod.fst, k2 ≠ k1 ++ "__error") →
        ∀ e ∈ (renderTasks (S ++ [k]) (childTasks entries) maxD (d + 1) true).edges,
          ∀ ck ∈ (childTasks entries).map Prod.fst,
            e.tgt = normalizedId (S ++ [k]) ck →
              e.src = S ++ [k] ∨ e.src = normalizedId (S ++ [k]) ck)
    ∧ ((∀ t ∈ childTasks entries, isLeafTask t.2 = true) →
        (renderTasks (S ++ [k]) (childTasks entries) maxD (d + 1) true).last.length
          = (childTasks entries).length) := by
  have hcut0 : depthCut maxD d = false := by
    cases maxD with
    | none => rfl
    | some D =>
      simp only [depthCut, decide_eq_false_iff_not, Nat.not_le] at hcut ⊢
      omega
  have hie : (childTasks entries).isEmpty = false := by
    cases hcc : childTasks entries with
    | nil => exact absurd hcc hne
    | cons a l => rfl
  have hrt : renderTasks (S ++ [k]) (childTasks entries) maxD (d + 1) true
      = renderLoop maxD (S ++ [k]) (d + 1) true [] (childTasks entries) := by
    simp [renderTasks, hcut]
  refine ⟨?_, ?_, ?_, ?_, ?_⟩
  · rw [hrt]
    simp only [renderTasks, hcut0, Bool.false_eq_true, ↓reduceIte]
    simp only [renderLoop, hie, hcut, hpar, Bool.false_eq_true, ↓reduceIte]
    rfl
  · intro t ht
    rw [hrt]
    exact renderLoop_par_entry maxD (S ++ [k]) (d + 1)
      (by simp) [] (childTasks entries) t ht
  · rw [hrt]
    have hmap : ((childTasks entries).map fun t =>
        (renderTasks (S ++ [k]) [t] maxD (d + 1) true).last)
        = ((childTasks entries).map fun t =>
            (renderLoop maxD (S ++ [k]) (d + 1) true [] [t]).last) := by
      simp only [renderTasks, hcut, Bool.false_eq_true, ↓reduceIte]
    rw [hmap]
    exact renderLoop_par_last maxD (S ++ [k]) (d + 1) [] (childTasks entries)
  · intro hkeys e he ck hck htgt
    rw [hrt] at he
    rcases renderLoop_par_edge_classes maxD (S ++ [k]) (d + 1) []
        (childTasks entries) e he with h | h | ⟨t, ht, h1, h2⟩ | h
    · exact Or.inl h
    · rw [htgt] at h
      exact Or.inr h
    · exfalso
      rw [htgt] at h1
      have hck2 : ck = t.1 ++ "__error" := normalizedId_inj _ _ _ h1
      exact hkeys t.1 (List.mem_map.mpr ⟨t, ht, rfl⟩) ck hck hck2
    · exfalso
      rw [htgt] at h
      simp [normalizedId] at h
  · intro hleaves
    rw [hrt, renderLoop_par_leaf_last maxD (S ++ [k]) (d + 1) []
      (childTasks entries) hleaves, List.length_map]

/-- A parallel container body with two leaf children. -/
def c1Entries : List (String × Val) :=
  [("_parallel", .bool true),
   ("+x", .dict [("sh>", .str "a.sh")]),
   ("+y", .dict [])]

theorem parallel_container_witness :
    (valTruthy (dget c1Entries "_parallel") = true
      ∧ childTasks c1Entries ≠ []
      ∧ depthCut none (0 + 1) = false
      ∧ (∀ k1 ∈ (childTasks c1Entries).map Prod.fst,
          ∀ k2 ∈ (childTasks c1Entries).map Prod.fst, k2 ≠ k1 ++ "__error")
      ∧ (∀ t ∈ childTasks c1Entries, isLeafTask t.2 = true))
    ∧ ((renderTasks ["wf"] [("+grp", Val.dict c1Entries)] none 0 false).last
        = (renderTasks (["wf"] ++ ["+grp"]) (childTasks c1Entries) none (0 + 1) true).last)
    ∧ (∀ t ∈ childTasks c1Entries,
        seqEdge (normalizedId ["wf"] "+grp") (normalizedId (["wf"] ++ ["+grp"]) t.1)
          ∈ (renderTasks (["wf"] ++ ["+grp"]) (childTasks c1Entries) none (0 + 1) true).edges)
    ∧ ((renderTasks (["wf"] ++ ["+grp"]) (childTasks c1Entries) none (0 + 1) true).last
        = ((childTasks c1Entries).map fun t =>
            (renderTasks (["wf"] ++ ["+grp"]) [t] none (0 + 1) true).last).flatten)
    ∧ (∀ e ∈ (renderTasks (["wf"] ++ ["+grp"]) (childTasks c1Entries) none (0 + 1) true).edges,
        ∀ ck ∈ (childTasks c1Entries).map Prod.fst,
          e.tgt = normalizedId (["wf"] ++ ["+grp"]) ck →
            e.src = ["wf"] ++ ["+grp"] ∨ e.src = normalizedId (["wf"] ++ ["+grp"]) ck)
    ∧ ((renderTasks (["wf"] ++ ["+grp"]) (childTasks c1Entries) none (0 + 1) true).last.length
        = (childTasks c1Entries).length) := by
  have hne : childTasks c1Entries ≠ [] := by
    rw [show childTasks c1Entries
        = [("+x", Val.dict [("sh>", Val.str "a.sh")]), ("+y", Val.dict [])] from rfl]
    exact List.cons_ne_nil _ _
  have h := parallel_container_semantics ["wf"] "+grp" c1Entries none 0 rfl hne rfl
  exact ⟨⟨rfl, hne, rfl, by decide, by decide⟩, h.1, h.2.1, h.2.2.1,
    h.2.2.2.1 (by decide), h.2.2.2.2 (by decide)⟩


theorem renderLoop_nodes_depth (D : Nat) (stack : List String) (c : Nat)
    (par : Bool) (prev : List (List String)) (tasks : List (String × Val)) :
    c < D → ∀ n ∈ (renderLoop (some D) stack c par prev tasks).nodes,
      n.id.length + c ≤ stack.length + D := by
  induction stack, c, par, prev, tasks using renderLoop.induct with
  | maxDepth => exact some D
  | case1 stack c par prev =>
    intro hc n hn
    simp [renderLoop] at hn
  | case2 stack c par prev tkey entries rest nodeId isPar cts child ih1 ih2 ih3 =>
    intro hc n hn
    simp only [renderLoop, List.mem_cons, List.mem_append] at hn
    rcases hn with rfl | hn
    · simp only [normalizedId, List.length_append, List.length_singleton]
      omega
    · rcases hn with (h | h) | h
      · -- error-handler node
        split at h
        · rw [List.mem_singleton] at h
          subst h
          simp only [normalizedId, List.length_append, List.length_singleton]
          omega
        · exact absurd h (List.not_mem_nil n)
      · -- child subtree nodes
        split at h
        · exact absurd h (List.not_mem_nil n)
        · split at h
          · exact absurd h (List.not_mem_nil n)
          · next hcut2 =>
            have hlt : c + 1 < D := by
              simp only [depthCut, decide_eq_true_eq, Nat.not_le] at hcut2
              exact hcut2
            have hb := ih2 hlt n h
            simp only [normalizedId, List.length_append, List.length_singleton] at hb
            omega
      · exact ih3 hc n h
  | case3 stack c par prev tkey b rest hnd nodeId ih =>
    intro hc n hn
    simp only [renderLoop, List.mem_cons] at hn
    rcases hn with rfl | h
    · simp only [normalizedId, List.length_append, List.length_singleton]
      omega
    · exact ih hc n h

theorem renderLoop_nodes_prev (maxD : Option Nat) (stack : List String)
    (c : Nat) (par : Bool) (prev : List (List String))
    (tasks : List (String × Val)) :
    ∀ prev2, (renderLoop maxD stack c par prev tasks).nodes
      = (renderLoop maxD stack c par prev2 tasks).nodes := by
  induction stack, c, par, prev, tasks using renderLoop.induct with
  | maxDepth => exact maxD
  | case1 stack c par prev =>
    intro prev2
    simp [renderLoop]
  | case2 stack c par prev tkey entries rest nodeId isPar cts child ih1 ih2 ih3 =>
    intro prev2
    cases par with
    | false =>
      simp only [renderLoop, Bool.false_eq_true, ↓reduceIte]
    | true =>
      simp only [↓reduceDIte] at ih3
      simp only [renderLoop, ↓reduceIte]
      rw [ih3 prev2]
  | case3 stack c par prev tkey b rest hnd nodeId ih =>
    intro prev2
    cases par with
    | false =>
      simp only [renderLoop, Bool.false_eq_true, ↓reduceIte]
    | true =>
      simp only [↓reduceDIte] at ih
      simp only [renderLoop, ↓reduceIte]
      rw [ih prev2]

theorem renderLoop_nodes_mem_prev (maxD : Option Nat) (stack : List String)
    (c : Nat) (par : Bool) (prev prev2 : List (List String))
    (tasks : List (String × Val)) (n : GNode)
    (h : n ∈ (renderLoop maxD stack c par prev tasks).nodes) :
    n ∈ (renderLoop maxD stack c par prev2 tasks).nodes := by
  rw [← renderLoop_nodes_prev maxD stack c par prev tasks prev2]
  exact h

theorem renderLoop_nodes_mono (D1 D2 : Nat) (hD : D1 ≤ D2) (stack : List String)
    (c : Nat) (par : Bool) (prev : List (List String))
    (tasks : List (String × Val)) :
    ∀ n ∈ (renderLoop (some D1) stack c par prev tasks).nodes,
      n ∈ (renderLoop (some D2) stack c par prev tasks).nodes := by
  induction stack, c, par, prev, tasks using renderLoop.induct with
  | maxDepth => exact some D1
  | case1 stack c par prev =>
    intro n hn
    simp [renderLoop] at hn
  | case2 stack c par prev tkey entries rest nodeId isPar cts child ih1 ih2 ih3 =>
    intro n hn
    simp only [renderLoop, List.mem_cons, List.mem_append] at hn ⊢
    rcases hn with rfl | hn
    · exact Or.inl rfl
    · rcases hn with (h | h) | h
      · exact Or.inr (Or.inl (Or.inl h))
      · -- child subtree nodes
        split at h
        · exact absurd h (List.not_mem_nil n)
        · split at h
          · exact absurd h (List.not_mem_nil n)
          · next hemp hcut1 =>
            have hemp2 : (childTasks entries).isEmpty = false := by
              rwa [Bool.not_eq_true] at hemp
            have hcut2 : depthCut (some D2) (c + 1) = false := by
              simp only [depthCut, decide_eq_true_eq, Nat.not_le] at hcut1 ⊢
              simp only [decide_eq_false_iff_not, Nat.not_le]
              omega
            refine Or.inr (Or.inl (Or.inr ?_))
            rw [hemp2, hcut2]
            simp only [Bool.false_eq_true, ↓reduceIte]
            exact ih2 n h
      · -- rest
        refine Or.inr (Or.inr ?_)
        exact renderLoop_nodes_mem_prev (some D2) stack c par _ _ rest n (ih3 n h)
  | case3 stack c par prev tkey b rest hnd nodeId ih =>
    intro n hn
    simp only [renderLoop, List.mem_cons] at hn ⊢
    rcases hn with rfl | h
    · exact Or.inl rfl
    · exact Or.inr (ih n h)


/-- C7: for every task tree and configured `max_depth = D`, the walker emits no
node whose task path exceeds depth D — a node id is the workflow-root segment
followed by the task path, so `id.length ≤ D + 1` — and for `D' ≤ D` the nodes
emitted under `D'` are a subset of those emitted under `D`. -/
theorem depth_limit_monotone (doc : List (String × Val)) (wf : String)
    (D Dp : Nat) (hD : Dp ≤ D) :
    (∀ n ∈ (buildGraph doc wf (some D)).1, n.id.length ≤ D + 1) ∧
    (∀ n ∈ (buildGraph doc wf (some Dp)).1, n ∈ (buildGraph doc wf (some D)).1) := by
  constructor
  · intro n hn
    simp only [buildGraph, List.mem_cons] at hn
    rcases hn with rfl | hn
    · simp [rootId]
    · rcases Nat.eq_zero_or_pos D with hD0 | hD0
      · subst hD0
        simp [renderTasks, depthCut, RenderResult.empty] at hn
      · have h0 : ¬ depthCut (some D) 0 = true := by
          simp only [depthCut, decide_eq_true_eq, Nat.not_le]
          omega
        rw [renderTasks, if_neg h0] at hn
        have hb := renderLoop_nodes_depth D [wf] 0 false [] _ hD0 n hn
        simp only [List.length_singleton, Nat.add_zero] at hb
        omega
  · intro n hn
    simp only [buildGraph, List.mem_cons] at hn ⊢
    rcases hn with rfl | hn
    · exact Or.inl rfl
    · refine Or.inr ?_
      rw [renderTasks] at hn ⊢
      by_cases hDp0 : depthCut (some Dp) 0 = true
      · rw [if_pos hDp0] at hn
        simp [RenderResult.empty] at hn
      · rw [if_neg hDp0] at hn
        have hD0 : ¬ depthCut (some D) 0 = true := by
          simp only [depthCut, decide_eq_true_eq, Nat.not_le] at hDp0 ⊢
          omega
        rw [if_neg hD0]
        exact renderLoop_nodes_mono Dp D hD [wf] 0 false [] _ n hn

theorem depth_limit_monotone_witness :
    (1 : Nat) ≤ 2 ∧
    ((∀ n ∈ (buildGraph [("+a", Val.dict [("+b", Val.dict [])])] "wf" (some 2)).1,
        n.id.length ≤ 2 + 1) ∧
      ∀ n ∈ (buildGraph [("+a", Val.dict [("+b", Val.dict [])])] "wf" (some 1)).1,
        n ∈ (buildGraph [("+a", Val.dict [("+b", Val.dict [])])] "wf" (some 2)).1) :=
  ⟨by decide,
   depth_limit_monotone [("+a", Val.dict [("+b", Val.dict [])])] "wf" 2 1 (by decide)⟩

end DigdagViz
